import Mathlib

/-!
# DatalogIR syntax checker: a verified shallow embedding

This file embeds the DatalogIR lexer (Lexer.tokenize), the recursive-descent
parser (Parser.parse_program) and the public entry point check_syntax from
src/IR.py, and proves the specified properties about them.  Source strings are
modelled as lists of characters; machine behaviour such as token values, error
positions (1-based line and column) and error messages is preserved.
-/

set_option linter.unusedVariables false

namespace DatalogIR

/-- Whitespace characters skipped by the lexer: space, tab, CR, LF. -/
def isWsChar (c : Char) : Bool := c = ' ' || c = '\t' || c = '\r' || c = '\n'

/-- Characters that may appear in an identifier: alphanumeric or underscore
(mirrors Lexer._read_identifier's continuation test). -/
def isIdentChar (c : Char) : Bool := c.isAlphanum || c = '_'

/-- Token types produced by the DatalogIR lexer (enum DatalogIRToken). -/
inductive TokType where
  | identLower | identUpper | wildcard
  | lparen | rparen | comma | dot
  | colonDash | equals | notEquals
  | notKw | question | eof
deriving DecidableEq, Repr

/-- Printable name of a token type, as used inside parser error messages. -/
def TokType.name : TokType → List Char
  | .identLower => "IDENT_LOWER".data
  | .identUpper => "IDENT_UPPER".data
  | .wildcard => "WILDCARD".data
  | .lparen => "LPAREN".data
  | .rparen => "RPAREN".data
  | .comma => "COMMA".data
  | .dot => "DOT".data
  | .colonDash => "COLON_DASH".data
  | .equals => "EQUALS".data
  | .notEquals => "NOT_EQUALS".data
  | .notKw => "NOT".data
  | .question => "QUESTION".data
  | .eof => "EOF".data

/-- A lexical token with its 1-based source position (class Token). -/
structure Token where
  type : TokType
  value : List Char
  line : Nat
  col : Nat
deriving DecidableEq, Repr

/-- A lexer error (class LexerError): message plus 1-based position. -/
structure LexError where
  msg : List Char
  line : Nat
  col : Nat
deriving DecidableEq, Repr

/-- Message of the LexerError raised on an unexpected character. -/
def unexpectedChar (c : Char) : List Char := "Unexpected character ".data ++ [c]

/-- The inner loop of the comment branch of _skip_whitespace_and_comments:
consume characters up to (but excluding) the next newline, tracking the
column. -/
def dropLine : List Char → Nat → List Char × Nat
  | [], col => ([], col)
  | c :: cs, col => if c = '\n' then (c :: cs, col) else dropLine cs (col + 1)

/-- Lexer._read_identifier: the maximal run of identifier characters, together
with the remaining input. -/
def readIdent : List Char → List Char × List Char
  | [] => ([], [])
  | c :: cs =>
    if isIdentChar c then
      let r := readIdent cs
      (c :: r.1, r.2)
    else ([], c :: cs)

/-- True when the next character continues an identifier (the lookahead used
by the wildcard branch of Lexer.tokenize). -/
def identCont : List Char → Bool
  | [] => false
  | c :: _ => isIdentChar c

/-- True when the next character is the given one (the single-character
lookahead the lexer uses for the two-character operators). -/
def nextIs (c : Char) : List Char → Bool
  | [] => false
  | d :: _ => d = c

/-- Error produced when the structural fuel counter runs out.  tokenize
always supplies enough fuel, so this value is unreachable from the public
entry points (tokenizeAux_fuel below makes the fuel irrelevant). -/
def fuelLexError : LexError := ⟨"internal: out of fuel".data, 0, 0⟩

/-- The outcome of one iteration of the Lexer.tokenize loop: skip a
whitespace character or a comment, emit one token, emit the final EOF
token, or fail on an unexpected character. -/
inductive LexAction where
  | skip (rest : List Char) (line col : Nat)
  | emit (t : Token) (rest : List Char) (line col : Nat)
  | stop (t : Token)
  | fail (e : LexError)
deriving DecidableEq, Repr

/-- One iteration of the Lexer.tokenize loop, with
_skip_whitespace_and_comments inlined one step at a time (each loop
iteration consumes one whitespace character or one comment, exactly as the
inner while loop of the source does): classify the next character, longest
match first, exactly in the order of the source's elif chain. -/
def lexStep : List Char → Nat → Nat → LexAction
  | [], line1, col1 => .stop ⟨.eof, [], line1, col1⟩
  | c :: rest, line1, col1 =>
    if c = ' ' ∨ c = '\t' ∨ c = '\r' then .skip rest line1 (col1 + 1)
    else if c = '\n' then .skip rest (line1 + 1) 1
    else if c = '%' then
      .skip (dropLine rest (col1 + 1)).1 line1 (dropLine rest (col1 + 1)).2
    else if c = '(' then .emit ⟨.lparen, ['('], line1, col1⟩ rest line1 (col1 + 1)
    else if c = ')' then .emit ⟨.rparen, [')'], line1, col1⟩ rest line1 (col1 + 1)
    else if c = ',' then .emit ⟨.comma, [','], line1, col1⟩ rest line1 (col1 + 1)
    else if c = '.' then .emit ⟨.dot, ['.'], line1, col1⟩ rest line1 (col1 + 1)
    else if c = '?' then .emit ⟨.question, ['?'], line1, col1⟩ rest line1 (col1 + 1)
    else if c = '=' then .emit ⟨.equals, ['='], line1, col1⟩ rest line1 (col1 + 1)
    else if c = '!' then
      if nextIs '=' rest then
        .emit ⟨.notEquals, ['!', '='], line1, col1⟩ rest.tail line1 (col1 + 2)
      else .fail ⟨unexpectedChar c, line1, col1⟩
    else if c = ':' then
      if nextIs '-' rest then
        .emit ⟨.colonDash, [':', '-'], line1, col1⟩ rest.tail line1 (col1 + 2)
      else .fail ⟨unexpectedChar c, line1, col1⟩
    else if c = '_' ∧ identCont rest = false then
      .emit ⟨.wildcard, ['_'], line1, col1⟩ rest line1 (col1 + 1)
    else if c.isAlpha ∨ c = '_' then
      if c :: (readIdent rest).1 = "not".data then
        .emit ⟨.notKw, c :: (readIdent rest).1, line1, col1⟩ (readIdent rest).2 line1
          (col1 + (c :: (readIdent rest).1).length)
      else if c.isUpper then
        .emit ⟨.identUpper, c :: (readIdent rest).1, line1, col1⟩ (readIdent rest).2 line1
          (col1 + (c :: (readIdent rest).1).length)
      else
        .emit ⟨.identLower, c :: (readIdent rest).1, line1, col1⟩ (readIdent rest).2 line1
          (col1 + (c :: (readIdent rest).1).length)
    else .fail ⟨unexpectedChar c, line1, col1⟩

/-- The Lexer.tokenize loop: iterate lexStep, collecting emitted tokens and
ending with the EOF token.  The first argument is structural fuel. -/
def tokenizeAux : Nat → List Char → Nat → Nat → Except LexError (List Token)
  | 0, _, _, _ => .error fuelLexError
  | fuel + 1, cs, line1, col1 =>
    match lexStep cs line1 col1 with
    | .stop t => .ok [t]
    | .fail e => .error e
    | .skip rest line2 col2 => tokenizeAux fuel rest line2 col2
    | .emit t rest line2 col2 => (tokenizeAux fuel rest line2 col2).map (fun ts => t :: ts)

/-- Lexer.tokenize: run the loop from line 1, column 1 with enough fuel for
the whole input. -/
def tokenize (cs : List Char) : Except LexError (List Token) :=
  tokenizeAux (cs.length + 1) cs 1 1

/-- The values Lexer.tokenize can give an IDENT_LOWER token: a nonempty run
of identifier characters starting with a non-uppercase letter or an
underscore, different from the keyword not, and different from a lone
underscore (which lexes as WILDCARD instead). -/
def wfLowerB : List Char → Bool
  | [] => false
  | c :: cs =>
    (c.isAlpha || c = '_') && !c.isUpper && (c :: cs).all isIdentChar &&
      !((c :: cs) == "not".data) && !((c :: cs) == ['_'])

/-- The values Lexer.tokenize can give an IDENT_UPPER token: a nonempty run
of identifier characters starting with an uppercase letter. -/
def wfUpperB : List Char → Bool
  | [] => false
  | c :: cs => c.isUpper && (c :: cs).all isIdentChar

/-- Invariants of every non-EOF token the lexer emits: the value is
nonempty, contains no whitespace or comment character, and identifier
tokens carry well-formed identifier values. -/
def GoodTok (t : Token) : Prop :=
  t.type ≠ .eof ∧ t.value ≠ [] ∧
    (∀ ch ∈ t.value, isWsChar ch = false ∧ ch ≠ '%') ∧
    (t.type = .identLower → wfLowerB t.value = true) ∧
    (t.type = .identUpper → wfUpperB t.value = true)

/-! ## AST -/

/-- A term: Constant (lowercase identifier), Variable (uppercase
identifier), or Wildcard, each carrying its source position. -/
inductive Term where
  | const (name : List Char) (line col : Nat)
  | var (name : List Char) (line col : Nat)
  | wild (line col : Nat)
deriving DecidableEq, Repr

/-- An atomic formula: p or p(t1, ..., tn). -/
structure Atom where
  predicate : List Char
  args : List Term
  line : Nat
  col : Nat
deriving DecidableEq, Repr

/-- A premise: positive Atom, NegatedAtom, Equality or Inequality. -/
inductive Premise where
  | atom (a : Atom)
  | neg (a : Atom) (line col : Nat)
  | eq (left right : Term) (line col : Nat)
  | ne (left right : Term) (line col : Nat)
deriving DecidableEq, Repr

/-- A clause: Fact, Rule, or Query. -/
inductive Clause where
  | fact (head : Atom) (line col : Nat)
  | rule (head : Atom) (body : List Premise) (line col : Nat)
  | query (atom : Atom) (line col : Nat)
deriving DecidableEq, Repr

/-- A complete program: the ordered clause sequence. -/
structure Program where
  clauses : List Clause
deriving DecidableEq, Repr

/-! Position erasure: the positions are diagnostic only, so structural
equality of two ASTs is equality after setting every line/col to 0. -/

def Term.strip : Term → Term
  | .const n _ _ => .const n 0 0
  | .var n _ _ => .var n 0 0
  | .wild _ _ => .wild 0 0

def Atom.strip (a : Atom) : Atom := ⟨a.predicate, a.args.map Term.strip, 0, 0⟩

def Premise.strip : Premise → Premise
  | .atom a => .atom a.strip
  | .neg a _ _ => .neg a.strip 0 0
  | .eq l r _ _ => .eq l.strip r.strip 0 0
  | .ne l r _ _ => .ne l.strip r.strip 0 0

def Clause.strip : Clause → Clause
  | .fact h _ _ => .fact h.strip 0 0
  | .rule h b _ _ => .rule h.strip (b.map Premise.strip) 0 0
  | .query a _ _ => .query a.strip 0 0

def Program.strip (p : Program) : Program := ⟨p.clauses.map Clause.strip⟩

/-! Canonical rendering: the __repr__ methods of the AST classes. -/

/-- sep.join(...): concatenate with a separator, as str.join does. -/
def joinSep (sep : List Char) : List (List Char) → List Char
  | [] => []
  | [x] => x
  | x :: xs => x ++ sep ++ joinSep sep xs

def Term.render : Term → List Char
  | .const n _ _ => n
  | .var n _ _ => n
  | .wild _ _ => ['_']

/-- Atom.__repr__: the bare predicate when there are no arguments,
otherwise predicate(arg1, arg2, ...). -/
def Atom.render (a : Atom) : List Char :=
  if a.args = [] then a.predicate
  else a.predicate ++ ['('] ++ joinSep ", ".data (a.args.map Term.render) ++ [')']

def Premise.render : Premise → List Char
  | .atom a => a.render
  | .neg a _ _ => "not ".data ++ a.render
  | .eq l r _ _ => l.render ++ ['='] ++ r.render
  | .ne l r _ _ => l.render ++ ['!', '='] ++ r.render

def Clause.render : Clause → List Char
  | .fact h _ _ => h.render ++ ['.']
  | .rule h b _ _ =>
    h.render ++ " :- ".data ++ joinSep ", ".data (b.map Premise.render) ++ ['.']
  | .query a _ _ => a.render ++ ['?']

/-- Program.__repr__: clauses joined by newlines. -/
def Program.render (p : Program) : List Char :=
  joinSep ['\n'] (p.clauses.map Clause.render)

/-! ## Parser -/

/-- A parser error (class SyntaxError in the source): message plus the
offending token's 1-based position. -/
structure PError where
  msg : List Char
  line : Nat
  col : Nat
deriving DecidableEq, Repr

/-- Stands for the IndexError Python would raise when the parser reads
past the end of the token list; unreachable when the list ends with EOF. -/
def outOfRangeErr : PError := ⟨"internal: token index out of range".data, 0, 0⟩

/-- Error produced when the parser loops run out of structural fuel;
unreachable because every loop iteration consumes at least one token. -/
def fuelPError : PError := ⟨"internal: out of fuel".data, 0, 0⟩

/-- Message of the error Parser._expect raises. -/
def expectedMsg (tt : TokType) (tok : Token) : List Char :=
  "Expected ".data ++ tt.name ++ ", got ".data ++ tok.type.name ++
    " (".data ++ tok.value ++ ")".data

/-- Message of the error Parser._parse_term raises. -/
def termErrMsg (tok : Token) : List Char :=
  "Expected a term (constant, variable, or _), got ".data ++ tok.type.name ++
    " (".data ++ tok.value ++ ")".data

/-- Message for a compound atom on the left of an equality. -/
def compoundEqMsg : List Char :=
  "Left side of = must be a term, not a compound atom".data

/-- Message for a compound atom on the left of an inequality. -/
def compoundNeMsg : List Char :=
  "Left side of != must be a term, not a compound atom".data

/-- Message of the error raised after a bare term premise with no = or !=. -/
def eqExpectedMsg (tok : Token) : List Char :=
  "Expected = or != after term in premise, got ".data ++ tok.type.name

/-- Parser._expect: consume the current token if it has the wanted type,
else fail at it. -/
def expectTok (tt : TokType) : List Token → Except PError (Token × List Token)
  | [] => .error outOfRangeErr
  | t :: ts =>
    if t.type = tt then .ok (t, ts) else .error ⟨expectedMsg tt t, t.line, t.col⟩

/-- Parser._match: consume the current token when it has the wanted type. -/
def matchTok (tt : TokType) : List Token → Option (Token × List Token)
  | [] => none
  | t :: ts => if t.type = tt then some (t, ts) else none

/-- Parser._peek_type: the type of the current token. -/
def peekType : List Token → Option TokType
  | [] => none
  | t :: _ => some t.type

/-- Parser._parse_term: a constant, a variable, or a wildcard. -/
def parse_term : List Token → Except PError (Term × List Token)
  | [] => .error outOfRangeErr
  | t :: ts =>
    if t.type = .identLower then .ok (.const t.value t.line t.col, ts)
    else if t.type = .identUpper then .ok (.var t.value t.line t.col, ts)
    else if t.type = .wildcard then .ok (.wild t.line t.col, ts)
    else .error ⟨termErrMsg t, t.line, t.col⟩

/-- The while-COMMA loop of Parser._parse_atom: zero or more comma-prefixed
further terms.  The first argument is structural fuel. -/
def parse_more_terms : Nat → List Token → Except PError (List Term × List Token)
  | 0, _ => .error fuelPError
  | fuel + 1, ts =>
    match matchTok .comma ts with
    | none => .ok ([], ts)
    | some (_, ts1) =>
      match parse_term ts1 with
      | .error e => .error e
      | .ok (t, ts2) =>
        match parse_more_terms fuel ts2 with
        | .error e => .error e
        | .ok (more, ts3) => .ok (t :: more, ts3)

/-- Parser._parse_atom: a lowercase identifier with an optional
parenthesized, non-empty, comma-separated argument list. -/
def parse_atom (ts : List Token) : Except PError (Atom × List Token) :=
  match expectTok .identLower ts with
  | .error e => .error e
  | .ok (tok, ts1) =>
    match matchTok .lparen ts1 with
    | none => .ok (⟨tok.value, [], tok.line, tok.col⟩, ts1)
    | some (_, ts2) =>
      match parse_term ts2 with
      | .error e => .error e
      | .ok (t, ts3) =>
        match parse_more_terms (ts3.length + 1) ts3 with
        | .error e => .error e
        | .ok (more, ts4) =>
          match expectTok .rparen ts4 with
          | .error e => .error e
          | .ok (_, ts5) => .ok (⟨tok.value, t :: more, tok.line, tok.col⟩, ts5)

/-- Parser._parse_premise: negation, an atom optionally reinterpreted as the
left side of an equality/inequality, or a bare term followed by = or !=. -/
def parse_premise : List Token → Except PError (Premise × List Token)
  | [] => .error outOfRangeErr
  | tok :: tsr =>
    if tok.type = .notKw then
      match parse_atom tsr with
      | .error e => .error e
      | .ok (a, ts2) => .ok (.neg a a.line a.col, ts2)
    else
      if tok.type = .identLower then
        match parse_atom (tok :: tsr) with
        | .error e => .error e
        | .ok (a, ts1) =>
          if peekType ts1 = some .equals then
            if a.args ≠ [] then .error ⟨compoundEqMsg, tok.line, tok.col⟩
            else
              match expectTok .equals ts1 with
              | .error e => .error e
              | .ok (_, ts2) =>
                match parse_term ts2 with
                | .error e => .error e
                | .ok (r, ts3) =>
                  .ok (.eq (.const a.predicate a.line a.col) r tok.line tok.col, ts3)
          else if peekType ts1 = some .notEquals then
            if a.args ≠ [] then .error ⟨compoundNeMsg, tok.line, tok.col⟩
            else
              match expectTok .notEquals ts1 with
              | .error e => .error e
              | .ok (_, ts2) =>
                match parse_term ts2 with
                | .error e => .error e
                | .ok (r, ts3) =>
                  .ok (.ne (.const a.predicate a.line a.col) r tok.line tok.col, ts3)
          else .ok (.atom a, ts1)
      else
        match parse_term (tok :: tsr) with
        | .error e => .error e
        | .ok (l, ts1) =>
          match matchTok .equals ts1 with
          | some (_, ts2) =>
            match parse_term ts2 with
            | .error e => .error e
            | .ok (r, ts3) => .ok (.eq l r tok.line tok.col, ts3)
          | none =>
            match matchTok .notEquals ts1 with
            | some (_, ts2) =>
              match parse_term ts2 with
              | .error e => .error e
              | .ok (r, ts3) => .ok (.ne l r tok.line tok.col, ts3)
            | none =>
              match ts1 with
              | [] => .error outOfRangeErr
              | cur :: _ => .error ⟨eqExpectedMsg cur, cur.line, cur.col⟩

/-- The while-COMMA loop of Parser._parse_clause: zero or more
comma-prefixed further premises.  The first argument is structural fuel. -/
def parse_more_premises : Nat → List Token → Except PError (List Premise × List Token)
  | 0, _ => .error fuelPError
  | fuel + 1, ts =>
    match matchTok .comma ts with
    | none => .ok ([], ts)
    | some (_, ts1) =>
      match parse_premise ts1 with
      | .error e => .error e
      | .ok (p, ts2) =>
        match parse_more_premises fuel ts2 with
        | .error e => .error e
        | .ok (more, ts3) => .ok (p :: more, ts3)

/-- Parser._parse_clause: a head atom followed by . (Fact), ? (Query), or
:- premises . (Rule). -/
def parse_clause (ts : List Token) : Except PError (Clause × List Token) :=
  match parse_atom ts with
  | .error e => .error e
  | .ok (head, ts1) =>
    match matchTok .dot ts1 with
    | some (_, ts2) => .ok (.fact head head.line head.col, ts2)
    | none =>
      match matchTok .question ts1 with
      | some (_, ts2) => .ok (.query head head.line head.col, ts2)
      | none =>
        match expectTok .colonDash ts1 with
        | .error e => .error e
        | .ok (_, ts2) =>
          match parse_premise ts2 with
          | .error e => .error e
          | .ok (p, ts3) =>
            match parse_more_premises (ts3.length + 1) ts3 with
            | .error e => .error e
            | .ok (ps, ts4) =>
              match expectTok .dot ts4 with
              | .error e => .error e
              | .ok (_, ts5) => .ok (.rule head (p :: ps) head.line head.col, ts5)

/-- The while-not-EOF loop of Parser.parse_program.  The first argument is
structural fuel. -/
def parse_program_aux : Nat → List Token → Except PError (List Clause × List Token)
  | 0, _ => .error fuelPError
  | fuel + 1, ts =>
    if peekType ts = some .eof then .ok ([], ts)
    else
      match parse_clause ts with
      | .error e => .error e
      | .ok (c, ts1) =>
        match parse_program_aux fuel ts1 with
        | .error e => .error e
        | .ok (cls, ts2) => .ok (c :: cls, ts2)

/-- Parser.parse_program: clauses until EOF, then consume the EOF token. -/
def parse_program (ts : List Token) : Except PError Program :=
  match parse_program_aux (ts.length + 1) ts with
  | .error e => .error e
  | .ok (cls, ts1) =>
    match expectTok .eof ts1 with
    | .error e => .error e
    | .ok _ => .ok ⟨cls⟩

/-- The two kinds of error check_syntax can raise. -/
inductive CheckError where
  | lex (e : LexError)
  | parse (e : PError)
deriving DecidableEq, Repr

/-- check_syntax on a character list: tokenize the whole source, then
parse the token stream. -/
def checkSyntaxL (cs : List Char) : Except CheckError Program :=
  match tokenize cs with
  | .error e => .error (.lex e)
  | .ok ts =>
    match parse_program ts with
    | .error e => .error (.parse e)
    | .ok p => .ok p

/-- check_syntax: the public entry point, on a source string. -/
def check_syntax (s : String) : Except CheckError Program := checkSyntaxL s.data

/-- Identifier tokens in the list carry well-formed identifier values; this
is all the parser invariant needs from the lexer. -/
def IdentsOk (ts : List Token) : Prop :=
  ∀ t ∈ ts, (t.type = .identLower → wfLowerB t.value = true) ∧
    (t.type = .identUpper → wfUpperB t.value = true)

/-! ## Well-formed ASTs: exactly the shapes the parser can produce from a
lexer token stream. -/

def wfTermB : Term → Bool
  | .const n _ _ => wfLowerB n
  | .var n _ _ => wfUpperB n
  | .wild _ _ => true

def wfAtomB (a : Atom) : Bool := wfLowerB a.predicate && a.args.all wfTermB

def wfPremiseB : Premise → Bool
  | .atom a => wfAtomB a
  | .neg a _ _ => wfAtomB a
  | .eq l r _ _ => wfTermB l && wfTermB r
  | .ne l r _ _ => wfTermB l && wfTermB r

def wfClauseB : Clause → Bool
  | .fact h _ _ => wfAtomB h
  | .rule h b _ _ => wfAtomB h && !b.isEmpty && b.all wfPremiseB
  | .query a _ _ => wfAtomB a

def wfProgramB (p : Program) : Bool := p.clauses.all wfClauseB

/-! ## Round-trip machinery: token keys and lexing of rendered text -/

/-- The (type, value) content of a token: the parts the parser's decisions
and the produced AST depend on. -/
def Token.key (t : Token) : TokType × List Char := (t.type, t.value)

def keysOf (ts : List Token) : List (TokType × List Char) := ts.map Token.key

/-- The token keys a rendered term lexes to. -/
def Term.keys : Term → List (TokType × List Char)
  | .const n _ _ => [(.identLower, n)]
  | .var n _ _ => [(.identUpper, n)]
  | .wild _ _ => [(.wildcard, ['_'])]

/-- The token keys of the comma-separated argument tail. -/
def termsTailKeys : List Term → List (TokType × List Char)
  | [] => []
  | t :: ts => ((.comma, [',']) :: t.keys) ++ termsTailKeys ts

/-- The token keys a rendered atom lexes to. -/
def Atom.keys (a : Atom) : List (TokType × List Char) :=
  match a.args with
  | [] => [(.identLower, a.predicate)]
  | t :: ts =>
    (.identLower, a.predicate) :: (.lparen, ['(']) ::
      (t.keys ++ termsTailKeys ts ++ [(.rparen, [')'])])

/-- The token keys a rendered premise lexes to. -/
def Premise.keys : Premise → List (TokType × List Char)
  | .atom a => a.keys
  | .neg a _ _ => (.notKw, "not".data) :: a.keys
  | .eq l r _ _ => l.keys ++ (.equals, ['=']) :: r.keys
  | .ne l r _ _ => l.keys ++ (.notEquals, ['!', '=']) :: r.keys

/-- The token keys of the comma-separated premise tail. -/
def premisesTailKeys : List Premise → List (TokType × List Char)
  | [] => []
  | p :: ps => ((.comma, [',']) :: p.keys) ++ premisesTailKeys ps

/-- The token keys of a whole rule body. -/
def bodyKeys : List Premise → List (TokType × List Char)
  | [] => []
  | p :: ps => p.keys ++ premisesTailKeys ps

/-- The token keys a rendered clause lexes to. -/
def Clause.keys : Clause → List (TokType × List Char)
  | .fact h _ _ => h.keys ++ [(.dot, ['.'])]
  | .rule h b _ _ =>
    h.keys ++ (.colonDash, [':', '-']) :: (bodyKeys b ++ [(.dot, ['.'])])
  | .query a _ _ => a.keys ++ [(.question, ['?'])]

/-- The token keys a rendered program lexes to (before the final EOF). -/
def Program.keys (p : Program) : List (TokType × List Char) :=
  (p.clauses.map Clause.keys).join

/-- The tail of a separated join: the separator before each further
element. -/
def joinTail (sep : List Char) : List (List Char) → List Char
  | [] => []
  | x :: xs => sep ++ x ++ joinTail sep xs

/-- tokenizeAux with its canonical fuel, used to state rendering lemmas. -/
def tokenizeFrom (cs : List Char) (l c : Nat) : Except LexError (List Token) :=
  tokenizeAux (cs.length + 1) cs l c

/-- The continuation's first key (if any) does not have the given type. -/
def KeyHeadNe (tt : TokType) : List (TokType × List Char) → Prop
  | [] => True
  | k :: _ => k.1 ≠ tt

/-- A source made only of whitespace and % line comments (fuel version;
each step consumes at least one character, so the length is enough fuel). -/
def wsOnlyAux : Nat → List Char → Bool
  | _, [] => true
  | 0, _ :: _ => false
  | fuel + 1, c :: cs2 =>
    if isWsChar c then wsOnlyAux fuel cs2
    else if c = '%' then wsOnlyAux fuel (dropLine cs2 0).1
    else false

/-- A source made only of whitespace and % line comments. -/
def wsOnly (cs : List Char) : Bool := wsOnlyAux cs.length cs

/-! ## The atoms and constant names occurring in a program -/

def Term.constNames : Term → List (List Char)
  | .const n _ _ => [n]
  | .var _ _ _ => []
  | .wild _ _ => []

def Atom.constNames (a : Atom) : List (List Char) :=
  (a.args.map Term.constNames).join

def Premise.atoms : Premise → List Atom
  | .atom a => [a]
  | .neg a _ _ => [a]
  | .eq _ _ _ _ => []
  | .ne _ _ _ _ => []

def Premise.constNames : Premise → List (List Char)
  | .atom a => a.constNames
  | .neg a _ _ => a.constNames
  | .eq l r _ _ => l.constNames ++ r.constNames
  | .ne l r _ _ => l.constNames ++ r.constNames

def Clause.atoms : Clause → List Atom
  | .fact h _ _ => [h]
  | .rule h b _ _ => h :: (b.map Premise.atoms).join
  | .query a _ _ => [a]

def Clause.constNames : Clause → List (List Char)
  | .fact h _ _ => h.constNames
  | .rule h b _ _ => h.constNames ++ (b.map Premise.constNames).join
  | .query a _ _ => a.constNames

def Program.atoms (P : Program) : List Atom :=
  (P.clauses.map Clause.atoms).join

def Program.constNames (P : Program) : List (List Char) :=
  (P.clauses.map Clause.constNames).join


/-! ## Theorems -/

theorem dropLine_length_le (cs : List Char) (col : Nat) :
    (dropLine cs col).1.length ≤ cs.length := by
  induction cs generalizing col with
  | nil => simp [dropLine]
  | cons c cs ih =>
    by_cases h : c = '\n'
    · simp [dropLine, h]
    · simp only [dropLine, if_neg h]
      exact Nat.le_succ_of_le (ih (col + 1))

theorem readIdent_snd_length_le (cs : List Char) :
    (readIdent cs).2.length ≤ cs.length := by
  induction cs with
  | nil => simp [readIdent]
  | cons c cs ih =>
    by_cases h : isIdentChar c
    · simp only [readIdent, if_pos h]
      exact Nat.le_succ_of_le ih
    · simp [readIdent, h]

/-- All characters collected by Lexer._read_identifier are identifier
characters. -/
theorem readIdent_fst_mem {cs : List Char} : ∀ ch ∈ (readIdent cs).1, isIdentChar ch = true := by
  induction cs with
  | nil => simp [readIdent]
  | cons c cs ih =>
    by_cases h : isIdentChar c
    · simp only [readIdent, if_pos h]
      intro ch hch
      rcases List.mem_cons.mp hch with rfl | hm
      · exact h
      · exact ih ch hm
    · simp [readIdent, h]

/-- A letter or underscore is an identifier character. -/
theorem identChar_of_alpha {ch : Char} (h : ch.isAlpha = true ∨ ch = '_') :
    isIdentChar ch = true := by
  rcases h with h | rfl
  · simp [isIdentChar, Char.isAlphanum, h]
  · decide

/-- An identifier character is not whitespace and not the comment
character. -/
theorem identChar_not_ws {ch : Char} (h : isIdentChar ch = true) :
    isWsChar ch = false ∧ ch ≠ '%' := by
  have hcases : ch.isAlphanum = true ∨ ch = '_' := by
    simpa [isIdentChar] using h
  constructor
  · by_contra hw
    simp only [Bool.not_eq_false] at hw
    have hws : ((ch = ' ' ∨ ch = '\t') ∨ ch = '\r') ∨ ch = '\n' := by
      simpa [isWsChar] using hw
    rcases hws with ((rfl | rfl) | rfl) | rfl <;> rcases hcases with hc | hc <;> simp_all
  · rintro rfl
    rcases hcases with hc | hc <;> simp_all

/-- GoodTok for the fixed-text (non-identifier) tokens. -/
theorem goodTok_fixed (tt : TokType) (v : List Char) (l c : Nat)
    (h1 : tt ≠ .eof) (h2 : v ≠ []) (h3 : ∀ ch ∈ v, isWsChar ch = false ∧ ch ≠ '%')
    (h4 : tt ≠ .identLower) (h5 : tt ≠ .identUpper) :
    GoodTok ⟨tt, v, l, c⟩ :=
  ⟨h1, h2, h3, fun hh => absurd hh h4, fun hh => absurd hh h5⟩

/-- Exhaustive description of one lexer step: it stops exactly at the end
of input, or fails, or skips at least one character, or emits a good token
and consumes at least one character. -/
theorem lexStep_cases (cs : List Char) (l c : Nat) :
    (lexStep cs l c = .stop ⟨.eof, [], l, c⟩ ∧ cs = []) ∨
    (∃ e, lexStep cs l c = .fail e) ∨
    (∃ rest l2 c2, lexStep cs l c = .skip rest l2 c2 ∧ rest.length < cs.length) ∨
    (∃ t rest l2 c2,
      lexStep cs l c = .emit t rest l2 c2 ∧ rest.length < cs.length ∧ GoodTok t) := by
  cases cs with
  | nil => exact .inl ⟨rfl, rfl⟩
  | cons ch cs =>
    rw [lexStep]
    by_cases h1 : ch = ' ' ∨ ch = '\t' ∨ ch = '\r'
    · rw [if_pos h1]
      exact .inr (.inr (.inl ⟨cs, _, _, rfl, by simp⟩))
    rw [if_neg h1]
    by_cases h2 : ch = '\n'
    · rw [if_pos h2]
      exact .inr (.inr (.inl ⟨cs, _, _, rfl, by simp⟩))
    rw [if_neg h2]
    by_cases h3 : ch = '%'
    · rw [if_pos h3]
      refine .inr (.inr (.inl ⟨_, _, _, rfl, ?_⟩))
      have := dropLine_length_le cs (c + 1)
      simp only [List.length_cons]
      omega
    rw [if_neg h3]
    by_cases h4 : ch = '('
    · rw [if_pos h4]
      exact .inr (.inr (.inr ⟨_, cs, _, _, rfl, by simp,
        goodTok_fixed _ _ _ _ (by decide) (by decide) (by decide) (by decide) (by decide)⟩))
    rw [if_neg h4]
    by_cases h5 : ch = ')'
    · rw [if_pos h5]
      exact .inr (.inr (.inr ⟨_, cs, _, _, rfl, by simp,
        goodTok_fixed _ _ _ _ (by decide) (by decide) (by decide) (by decide) (by decide)⟩))
    rw [if_neg h5]
    by_cases h6 : ch = ','
    · rw [if_pos h6]
      exact .inr (.inr (.inr ⟨_, cs, _, _, rfl, by simp,
        goodTok_fixed _ _ _ _ (by decide) (by decide) (by decide) (by decide) (by decide)⟩))
    rw [if_neg h6]
    by_cases h7 : ch = '.'
    · rw [if_pos h7]
      exact .inr (.inr (.inr ⟨_, cs, _, _, rfl, by simp,
        goodTok_fixed _ _ _ _ (by decide) (by decide) (by decide) (by decide) (by decide)⟩))
    rw [if_neg h7]
    by_cases h8 : ch = '?'
    · rw [if_pos h8]
      exact .inr (.inr (.inr ⟨_, cs, _, _, rfl, by simp,
        goodTok_fixed _ _ _ _ (by decide) (by decide) (by decide) (by decide) (by decide)⟩))
    rw [if_neg h8]
    by_cases h9 : ch = '='
    · rw [if_pos h9]
      exact .inr (.inr (.inr ⟨_, cs, _, _, rfl, by simp,
        goodTok_fixed _ _ _ _ (by decide) (by decide) (by decide) (by decide) (by decide)⟩))
    rw [if_neg h9]
    have htail : cs.tail.length ≤ cs.length := by cases cs <;> simp
    by_cases h10 : ch = '!'
    · rw [if_pos h10]
      by_cases hn : nextIs '=' cs = true
      · rw [if_pos hn]
        refine .inr (.inr (.inr ⟨_, cs.tail, _, _, rfl, ?_,
          goodTok_fixed _ _ _ _ (by decide) (by decide) (by decide) (by decide) (by decide)⟩))
        simp only [List.length_cons]
        omega
      · rw [if_neg hn]
        exact .inr (.inl ⟨_, rfl⟩)
    rw [if_neg h10]
    by_cases h11 : ch = ':'
    · rw [if_pos h11]
      by_cases hn : nextIs '-' cs = true
      · rw [if_pos hn]
        refine .inr (.inr (.inr ⟨_, cs.tail, _, _, rfl, ?_,
          goodTok_fixed _ _ _ _ (by decide) (by decide) (by decide) (by decide) (by decide)⟩))
        simp only [List.length_cons]
        omega
      · rw [if_neg hn]
        exact .inr (.inl ⟨_, rfl⟩)
    rw [if_neg h11]
    by_cases h12 : ch = '_' ∧ identCont cs = false
    · rw [if_pos h12]
      exact .inr (.inr (.inr ⟨_, cs, _, _, rfl, by simp,
        goodTok_fixed _ _ _ _ (by decide) (by decide) (by decide) (by decide) (by decide)⟩))
    rw [if_neg h12]
    by_cases h13 : ch.isAlpha = true ∨ ch = '_'
    · rw [if_pos h13]
      have hri := readIdent_snd_length_le cs
      have hlen : (readIdent cs).2.length < (ch :: cs).length := by
        simp only [List.length_cons]; omega
      have hchid : isIdentChar ch = true := identChar_of_alpha h13
      have hvals : ∀ x ∈ ch :: (readIdent cs).1, isWsChar x = false ∧ x ≠ '%' := by
        intro x hx
        rcases List.mem_cons.mp hx with rfl | hm
        · exact identChar_not_ws hchid
        · exact identChar_not_ws (readIdent_fst_mem x hm)
      have hall : (ch :: (readIdent cs).1).all isIdentChar = true := by
        rw [List.all_eq_true]
        intro x hx
        rcases List.mem_cons.mp hx with rfl | hm
        · exact hchid
        · exact readIdent_fst_mem x hm
      by_cases hnot : ch :: (readIdent cs).1 = "not".data
      · rw [if_pos hnot]
        exact .inr (.inr (.inr ⟨_, _, _, _, rfl, hlen, by simp, by simp, hvals,
          by simp, by simp⟩))
      rw [if_neg hnot]
      by_cases hup : ch.isUpper = true
      · rw [if_pos hup]
        refine .inr (.inr (.inr ⟨_, _, _, _, rfl, hlen, by simp, by simp, hvals,
          by simp, ?_⟩))
        intro hty
        simp only [wfUpperB]
        rw [hup, hall]
        rfl
      · rw [if_neg hup]
        refine .inr (.inr (.inr ⟨_, _, _, _, rfl, hlen, by simp, by simp, hvals,
          ?_, by simp⟩))
        intro hty
        have hne1 : ((ch :: (readIdent cs).1) == "not".data) = false := by
          simpa using hnot
        have hnotlone : ch :: (readIdent cs).1 ≠ ['_'] := by
          intro heq
          injection heq with hch2 hfst
          have hic : identCont cs = true := by
            rcases not_and_or.mp h12 with hc | hc
            · exact absurd hch2 hc
            · simpa using hc
          cases cs with
          | nil => simp [identCont] at hic
          | cons c2 cs2 =>
            have : isIdentChar c2 = true := by simpa [identCont] using hic
            rw [readIdent, if_pos this] at hfst
            simp at hfst
        have hne2 : ((ch :: (readIdent cs).1) == ['_']) = false := by
          simpa using hnotlone
        simp only [wfLowerB]
        have halpha : (ch.isAlpha || ch = '_') = true := by
          rcases h13 with h | rfl
          · simp [h]
          · simp
        have hnup : (!ch.isUpper) = true := by simp [Bool.not_eq_true', hup]
        rw [halpha, hnup, hall, hne1, hne2]
        rfl
    · rw [if_neg h13]
      exact .inr (.inl ⟨_, rfl⟩)

theorem lexStep_skip_length {cs rest : List Char} {l c l2 c2 : Nat}
    (h : lexStep cs l c = .skip rest l2 c2) : rest.length < cs.length := by
  rcases lexStep_cases cs l c with ⟨hs, _⟩ | ⟨e, hs⟩ | ⟨r, a, b, hs, hlen⟩ |
    ⟨t, r, a, b, hs, hlen, _⟩ <;> rw [hs] at h <;> try cases h
  exact hlen

theorem lexStep_emit_length {cs rest : List Char} {t : Token} {l c l2 c2 : Nat}
    (h : lexStep cs l c = .emit t rest l2 c2) : rest.length < cs.length := by
  rcases lexStep_cases cs l c with ⟨hs, _⟩ | ⟨e, hs⟩ | ⟨r, a, b, hs, hlen⟩ |
    ⟨t2, r, a, b, hs, hlen, _⟩ <;> rw [hs] at h <;> try cases h
  exact hlen

/-- The fuel argument of tokenizeAux is irrelevant as long as it exceeds the
input length: every loop iteration consumes at least one character. -/
theorem tokenizeAux_fuel {fuel1 fuel2 : Nat} (cs : List Char) (line col : Nat)
    (h1 : cs.length < fuel1) (h2 : cs.length < fuel2) :
    tokenizeAux fuel1 cs line col = tokenizeAux fuel2 cs line col := by
  induction fuel1 generalizing fuel2 cs line col with
  | zero => omega
  | succ fuel1 ih =>
    cases fuel2 with
    | zero => omega
    | succ fuel2 =>
      rw [tokenizeAux, tokenizeAux]
      cases hs : lexStep cs line col with
      | stop t => rfl
      | fail e => rfl
      | skip rest line2 col2 =>
        have := lexStep_skip_length hs
        exact ih rest line2 col2 (by omega) (by omega)
      | emit t rest line2 col2 =>
        have := lexStep_emit_length hs
        exact congrArg (Except.map fun ts => t :: ts)
          (ih rest line2 col2 (by omega) (by omega))

/-! ## Parser inversion and consumption lemmas -/

theorem expectTok_ok {tt : TokType} {ts : List Token} {tok : Token} {ts' : List Token}
    (h : expectTok tt ts = .ok (tok, ts')) : ts = tok :: ts' ∧ tok.type = tt := by
  cases ts with
  | nil => simp [expectTok] at h
  | cons t ts2 =>
    by_cases ht : t.type = tt
    · rw [expectTok, if_pos ht] at h
      obtain ⟨rfl, rfl⟩ : t = tok ∧ ts2 = ts' := by
        simpa using h
      exact ⟨rfl, ht⟩
    · rw [expectTok, if_neg ht] at h
      exact Except.noConfusion h

theorem matchTok_some {tt : TokType} {ts : List Token} {tok : Token} {ts' : List Token}
    (h : matchTok tt ts = some (tok, ts')) : ts = tok :: ts' ∧ tok.type = tt := by
  cases ts with
  | nil => simp [matchTok] at h
  | cons t ts2 =>
    by_cases ht : t.type = tt
    · rw [matchTok, if_pos ht] at h
      obtain ⟨rfl, rfl⟩ : t = tok ∧ ts2 = ts' := by
        simpa using h
      exact ⟨rfl, ht⟩
    · rw [matchTok, if_neg ht] at h
      exact Option.noConfusion h

theorem parse_term_ok {ts : List Token} {t : Term} {ts' : List Token}
    (h : parse_term ts = .ok (t, ts')) : ∃ tok, ts = tok :: ts' := by
  cases ts with
  | nil => simp [parse_term] at h
  | cons tok ts2 =>
    rw [parse_term] at h
    have hts : ts2 = ts' := by
      split_ifs at h <;> first
        | exact (show _ ∧ ts2 = ts' by simpa using h).2
        | exact Except.noConfusion h
    exact ⟨tok, by rw [hts]⟩

theorem parse_more_terms_le {fuel : Nat} {ts : List Token} {r : List Term}
    {ts' : List Token} (h : parse_more_terms fuel ts = .ok (r, ts')) :
    ts'.length ≤ ts.length := by
  induction fuel generalizing ts r ts' with
  | zero => exact Except.noConfusion h
  | succ fuel ih =>
    rw [parse_more_terms] at h
    cases hm : matchTok .comma ts with
    | none =>
      simp only [hm] at h
      obtain ⟨-, rfl⟩ : r = [] ∧ ts = ts' := by simpa using h
      exact le_refl _
    | some p =>
      obtain ⟨ctok, ts1⟩ := p
      simp only [hm] at h
      obtain ⟨rfl, -⟩ := matchTok_some hm
      cases hp : parse_term ts1 with
      | error e => simp [hp] at h
      | ok q =>
        obtain ⟨t, ts2⟩ := q
        simp only [hp] at h
        obtain ⟨tok2, rfl⟩ := parse_term_ok hp
        cases hrec : parse_more_terms fuel ts2 with
        | error e => simp [hrec] at h
        | ok q2 =>
          obtain ⟨more, ts3⟩ := q2
          simp only [hrec] at h
          obtain ⟨-, rfl⟩ : t :: more = r ∧ ts3 = ts' := by simpa using h
          have := ih hrec
          simp only [List.length_cons]
          omega

theorem parse_atom_ok {ts : List Token} {a : Atom} {ts' : List Token}
    (h : parse_atom ts = .ok (a, ts')) : ts'.length < ts.length := by
  rw [parse_atom] at h
  cases hE : expectTok .identLower ts with
  | error e => simp [hE] at h
  | ok p =>
    obtain ⟨tok, ts1⟩ := p
    simp only [hE] at h
    obtain ⟨rfl, -⟩ := expectTok_ok hE
    cases hm : matchTok .lparen ts1 with
    | none =>
      simp only [hm] at h
      obtain ⟨-, rfl⟩ : _ ∧ ts1 = ts' := by simpa using h
      simp
    | some p2 =>
      obtain ⟨ltok, ts2⟩ := p2
      simp only [hm] at h
      obtain ⟨rfl, -⟩ := matchTok_some hm
      cases hp : parse_term ts2 with
      | error e => simp [hp] at h
      | ok q =>
        obtain ⟨t, ts3⟩ := q
        simp only [hp] at h
        obtain ⟨tok2, rfl⟩ := parse_term_ok hp
        cases hmt : parse_more_terms (ts3.length + 1) ts3 with
        | error e => simp [hmt] at h
        | ok q2 =>
          obtain ⟨more, ts4⟩ := q2
          simp only [hmt] at h
          have h4 := parse_more_terms_le hmt
          cases hR : expectTok .rparen ts4 with
          | error e => simp [hR] at h
          | ok q3 =>
            obtain ⟨rtok, ts5⟩ := q3
            simp only [hR] at h
            obtain ⟨rfl, -⟩ := expectTok_ok hR
            obtain ⟨-, rfl⟩ : _ ∧ ts5 = ts' := by simpa using h
            simp only [List.length_cons] at h4 ⊢
            omega

theorem parse_premise_ok {ts : List Token} {p : Premise} {ts' : List Token}
    (h : parse_premise ts = .ok (p, ts')) : ts'.length < ts.length := by
  cases ts with
  | nil => simp [parse_premise] at h
  | cons tok tsr =>
    rw [parse_premise] at h
    by_cases hnot : tok.type = TokType.notKw
    · rw [if_pos hnot] at h
      cases ha : parse_atom tsr with
      | error e => simp [ha] at h
      | ok q =>
        obtain ⟨a, ts2⟩ := q
        simp only [ha] at h
        obtain ⟨-, rfl⟩ : _ ∧ ts2 = ts' := by simpa using h
        have := parse_atom_ok ha
        simp only [List.length_cons]
        omega
    · rw [if_neg hnot] at h
      by_cases hty : tok.type = TokType.identLower
      · rw [if_pos hty] at h
        cases ha : parse_atom (tok :: tsr) with
        | error e => simp [ha] at h
        | ok q =>
          obtain ⟨a, ts1⟩ := q
          simp only [ha] at h
          have h1 := parse_atom_ok ha
          by_cases he : peekType ts1 = some TokType.equals
          · rw [if_pos he] at h
            by_cases hargs : a.args ≠ []
            · rw [if_pos hargs] at h
              exact Except.noConfusion h
            · rw [if_neg hargs] at h
              cases hE : expectTok .equals ts1 with
              | error e => simp [hE] at h
              | ok q2 =>
                obtain ⟨etok, ts2⟩ := q2
                simp only [hE] at h
                obtain ⟨rfl, -⟩ := expectTok_ok hE
                cases hr : parse_term ts2 with
                | error e => simp [hr] at h
                | ok q3 =>
                  obtain ⟨r, ts3⟩ := q3
                  simp only [hr] at h
                  obtain ⟨tok3, rfl⟩ := parse_term_ok hr
                  obtain ⟨-, rfl⟩ : _ ∧ ts3 = ts' := by simpa using h
                  simp only [List.length_cons] at h1 ⊢
                  omega
          · rw [if_neg he] at h
            by_cases hne : peekType ts1 = some TokType.notEquals
            · rw [if_pos hne] at h
              by_cases hargs : a.args ≠ []
              · rw [if_pos hargs] at h
                exact Except.noConfusion h
              · rw [if_neg hargs] at h
                cases hE : expectTok .notEquals ts1 with
                | error e => simp [hE] at h
                | ok q2 =>
                  obtain ⟨etok, ts2⟩ := q2
                  simp only [hE] at h
                  obtain ⟨rfl, -⟩ := expectTok_ok hE
                  cases hr : parse_term ts2 with
                  | error e => simp [hr] at h
                  | ok q3 =>
                    obtain ⟨r, ts3⟩ := q3
                    simp only [hr] at h
                    obtain ⟨tok3, rfl⟩ := parse_term_ok hr
                    obtain ⟨-, rfl⟩ : _ ∧ ts3 = ts' := by simpa using h
                    simp only [List.length_cons] at h1 ⊢
                    omega
            · rw [if_neg hne] at h
              obtain ⟨-, rfl⟩ : _ ∧ ts1 = ts' := by simpa using h
              exact h1
      · rw [if_neg hty] at h
        cases hl : parse_term (tok :: tsr) with
        | error e => simp [hl] at h
        | ok q =>
          obtain ⟨l, ts1⟩ := q
          simp only [hl] at h
          obtain ⟨tok2, hcons⟩ := parse_term_ok hl
          have h1 : ts1.length < (tok :: tsr).length := by
            rw [hcons]
            simp
          cases hmq : matchTok .equals ts1 with
          | some p2 =>
            obtain ⟨etok, ts2⟩ := p2
            simp only [hmq] at h
            obtain ⟨rfl, -⟩ := matchTok_some hmq
            cases hr : parse_term ts2 with
            | error e => simp [hr] at h
            | ok q3 =>
              obtain ⟨r, ts3⟩ := q3
              simp only [hr] at h
              obtain ⟨tok3, rfl⟩ := parse_term_ok hr
              obtain ⟨-, rfl⟩ : _ ∧ ts3 = ts' := by simpa using h
              simp only [List.length_cons] at h1 ⊢
              omega
          | none =>
            simp only [hmq] at h
            cases hmn : matchTok .notEquals ts1 with
            | some p2 =>
              obtain ⟨etok, ts2⟩ := p2
              simp only [hmn] at h
              obtain ⟨rfl, -⟩ := matchTok_some hmn
              cases hr : parse_term ts2 with
              | error e => simp [hr] at h
              | ok q3 =>
                obtain ⟨r, ts3⟩ := q3
                simp only [hr] at h
                obtain ⟨tok3, rfl⟩ := parse_term_ok hr
                obtain ⟨-, rfl⟩ : _ ∧ ts3 = ts' := by simpa using h
                simp only [List.length_cons] at h1 ⊢
                omega
            | none =>
              simp only [hmn] at h
              cases ts1 with
              | nil => exact Except.noConfusion h
              | cons cur ts2 => exact Except.noConfusion h

theorem parse_more_premises_le {fuel : Nat} {ts : List Token} {r : List Premise}
    {ts' : List Token} (h : parse_more_premises fuel ts = .ok (r, ts')) :
    ts'.length ≤ ts.length := by
  induction fuel generalizing ts r ts' with
  | zero => exact Except.noConfusion h
  | succ fuel ih =>
    rw [parse_more_premises] at h
    cases hm : matchTok .comma ts with
    | none =>
      simp only [hm] at h
      obtain ⟨-, rfl⟩ : r = [] ∧ ts = ts' := by simpa using h
      exact le_refl _
    | some p =>
      obtain ⟨ctok, ts1⟩ := p
      simp only [hm] at h
      obtain ⟨rfl, -⟩ := matchTok_some hm
      cases hp : parse_premise ts1 with
      | error e => simp [hp] at h
      | ok q =>
        obtain ⟨t, ts2⟩ := q
        simp only [hp] at h
        have h1 := parse_premise_ok hp
        cases hrec : parse_more_premises fuel ts2 with
        | error e => simp [hrec] at h
        | ok q2 =>
          obtain ⟨more, ts3⟩ := q2
          simp only [hrec] at h
          obtain ⟨-, rfl⟩ : t :: more = r ∧ ts3 = ts' := by simpa using h
          have := ih hrec
          simp only [List.length_cons]
          omega

theorem parse_clause_ok {ts : List Token} {c : Clause} {ts' : List Token}
    (h : parse_clause ts = .ok (c, ts')) : ts'.length < ts.length := by
  rw [parse_clause] at h
  cases ha : parse_atom ts with
  | error e => simp [ha] at h
  | ok q =>
    obtain ⟨head, ts1⟩ := q
    simp only [ha] at h
    have h1 := parse_atom_ok ha
    cases hd : matchTok .dot ts1 with
    | some p =>
      obtain ⟨dtok, ts2⟩ := p
      simp only [hd] at h
      obtain ⟨rfl, -⟩ := matchTok_some hd
      obtain ⟨-, rfl⟩ : _ ∧ ts2 = ts' := by simpa using h
      simp only [List.length_cons] at h1
      omega
    | none =>
      simp only [hd] at h
      cases hq : matchTok .question ts1 with
      | some p =>
        obtain ⟨qtok, ts2⟩ := p
        simp only [hq] at h
        obtain ⟨rfl, -⟩ := matchTok_some hq
        obtain ⟨-, rfl⟩ : _ ∧ ts2 = ts' := by simpa using h
        simp only [List.length_cons] at h1
        omega
      | none =>
        simp only [hq] at h
        cases hc : expectTok .colonDash ts1 with
        | error e => simp [hc] at h
        | ok q2 =>
          obtain ⟨ctok, ts2⟩ := q2
          simp only [hc] at h
          obtain ⟨rfl, -⟩ := expectTok_ok hc
          cases hp : parse_premise ts2 with
          | error e => simp [hp] at h
          | ok q3 =>
            obtain ⟨p, ts3⟩ := q3
            simp only [hp] at h
            have h2 := parse_premise_ok hp
            cases hmp : parse_more_premises (ts3.length + 1) ts3 with
            | error e => simp [hmp] at h
            | ok q4 =>
              obtain ⟨ps, ts4⟩ := q4
              simp only [hmp] at h
              have h3 := parse_more_premises_le hmp
              cases hD : expectTok .dot ts4 with
              | error e => simp [hD] at h
              | ok q5 =>
                obtain ⟨dtok, ts5⟩ := q5
                simp only [hD] at h
                obtain ⟨rfl, -⟩ := expectTok_ok hD
                obtain ⟨-, rfl⟩ : _ ∧ ts5 = ts' := by simpa using h
                simp only [List.length_cons] at h1 h2 h3 ⊢
                omega

/-- The fuel of parse_more_terms is irrelevant once it exceeds the number
of tokens. -/
theorem parse_more_terms_fuel {fuel1 fuel2 : Nat} (ts : List Token)
    (h1 : ts.length < fuel1) (h2 : ts.length < fuel2) :
    parse_more_terms fuel1 ts = parse_more_terms fuel2 ts := by
  induction fuel1 generalizing fuel2 ts with
  | zero => omega
  | succ fuel1 ih =>
    cases fuel2 with
    | zero => omega
    | succ fuel2 =>
      rw [parse_more_terms, parse_more_terms]
      cases hm : matchTok .comma ts with
      | none => simp only [hm]
      | some p =>
        obtain ⟨ctok, ts1⟩ := p
        simp only [hm]
        obtain ⟨rfl, -⟩ := matchTok_some hm
        cases hp : parse_term ts1 with
        | error e => simp only [hp]
        | ok q =>
          obtain ⟨t, ts2⟩ := q
          simp only [hp]
          obtain ⟨tok2, rfl⟩ := parse_term_ok hp
          simp only [List.length_cons] at h1 h2
          rw [@ih fuel2 ts2 (by omega) (by omega)]

/-- The fuel of parse_more_premises is irrelevant once it exceeds the
number of tokens. -/
theorem parse_more_premises_fuel {fuel1 fuel2 : Nat} (ts : List Token)
    (h1 : ts.length < fuel1) (h2 : ts.length < fuel2) :
    parse_more_premises fuel1 ts = parse_more_premises fuel2 ts := by
  induction fuel1 generalizing fuel2 ts with
  | zero => omega
  | succ fuel1 ih =>
    cases fuel2 with
    | zero => omega
    | succ fuel2 =>
      rw [parse_more_premises, parse_more_premises]
      cases hm : matchTok .comma ts with
      | none => simp only [hm]
      | some p =>
        obtain ⟨ctok, ts1⟩ := p
        simp only [hm]
        obtain ⟨rfl, -⟩ := matchTok_some hm
        cases hp : parse_premise ts1 with
        | error e => simp only [hp]
        | ok q =>
          obtain ⟨t, ts2⟩ := q
          simp only [hp]
          have := parse_premise_ok hp
          simp only [List.length_cons] at h1 h2
          rw [@ih fuel2 ts2 (by omega) (by omega)]

/-- Every successful tokenizer run produces a list of good tokens followed
by exactly one EOF token. -/
theorem tokenizeAux_ok_spec {fuel : Nat} {cs : List Char} {l c : Nat} {ts : List Token}
    (h : tokenizeAux fuel cs l c = .ok ts) :
    ∃ ts0 tEof, ts = ts0 ++ [tEof] ∧ tEof.type = .eof ∧ tEof.value = [] ∧
      ∀ t ∈ ts0, GoodTok t := by
  induction fuel generalizing cs l c ts with
  | zero => exact Except.noConfusion h
  | succ fuel ih =>
    rw [tokenizeAux] at h
    rcases lexStep_cases cs l c with ⟨hs, -⟩ | ⟨e, hs⟩ | ⟨rest, l2, c2, hs, -⟩ |
      ⟨t, rest, l2, c2, hs, -, hgood⟩ <;> simp only [hs] at h
    · obtain rfl : [(⟨.eof, [], l, c⟩ : Token)] = ts := by simpa using h
      exact ⟨[], ⟨.eof, [], l, c⟩, rfl, rfl, rfl, by simp⟩
    · exact Except.noConfusion h
    · exact ih h
    · cases hin : tokenizeAux fuel rest l2 c2 with
      | error e => rw [hin] at h; exact Except.noConfusion h
      | ok ts' =>
        rw [hin] at h
        obtain rfl : t :: ts' = ts := by simpa [Except.map] using h
        obtain ⟨ts0, tEof, rfl, hEof, hval, hg⟩ := ih hin
        refine ⟨t :: ts0, tEof, by simp, hEof, hval, ?_⟩
        intro x hx
        rcases List.mem_cons.mp hx with rfl | hm
        · exact hgood
        · exact hg x hm

theorem IdentsOk_cons {t : Token} {ts : List Token} (h : IdentsOk (t :: ts)) :
    IdentsOk ts := fun x hx => h x (List.mem_cons_of_mem t hx)

/-- The token list of every successful tokenizer run has well-formed
identifier values. -/
theorem tokenizeAux_identsOk {fuel : Nat} {cs : List Char} {l c : Nat} {ts : List Token}
    (h : tokenizeAux fuel cs l c = .ok ts) : IdentsOk ts := by
  obtain ⟨ts0, tEof, rfl, hEof, hval, hg⟩ := tokenizeAux_ok_spec h
  intro t ht
  rcases List.mem_append.mp ht with hm | hm
  · exact ⟨fun h1 => ((hg t hm).2.2.2.1 h1), fun h1 => ((hg t hm).2.2.2.2 h1)⟩
  · obtain rfl : t = tEof := by simpa using hm
    constructor <;> intro h1 <;> rw [h1] at hEof <;> exact TokType.noConfusion hEof

/-- The fuel of parse_program_aux is irrelevant once it exceeds the number
of tokens. -/
theorem parse_program_aux_fuel {fuel1 fuel2 : Nat} (ts : List Token)
    (h1 : ts.length < fuel1) (h2 : ts.length < fuel2) :
    parse_program_aux fuel1 ts = parse_program_aux fuel2 ts := by
  induction fuel1 generalizing fuel2 ts with
  | zero => omega
  | succ fuel1 ih =>
    cases fuel2 with
    | zero => omega
    | succ fuel2 =>
      rw [parse_program_aux, parse_program_aux]
      by_cases he : peekType ts = some TokType.eof
      · rw [if_pos he, if_pos he]
      · rw [if_neg he, if_neg he]
        cases hc : parse_clause ts with
        | error e => simp only [hc]
        | ok q =>
          obtain ⟨c, ts1⟩ := q
          simp only [hc]
          have := parse_clause_ok hc
          rw [@ih fuel2 ts1 (by omega) (by omega)]

/-! ## The parser invariant: on a lexer-produced token stream every parsed
AST node is well formed. -/

theorem parse_term_wf {ts : List Token} {t : Term} {ts' : List Token}
    (hok : IdentsOk ts) (h : parse_term ts = .ok (t, ts')) :
    wfTermB t = true ∧ IdentsOk ts' := by
  cases ts with
  | nil => simp [parse_term] at h
  | cons tok ts2 =>
    have hhead := hok tok (List.mem_cons_self tok ts2)
    have htail := IdentsOk_cons hok
    rw [parse_term] at h
    split_ifs at h with h1 h2 h3
    · obtain ⟨rfl, rfl⟩ : Term.const tok.value tok.line tok.col = t ∧ ts2 = ts' := by
        simpa using h
      exact ⟨by simpa [wfTermB] using hhead.1 h1, htail⟩
    · obtain ⟨rfl, rfl⟩ : Term.var tok.value tok.line tok.col = t ∧ ts2 = ts' := by
        simpa using h
      exact ⟨by simpa [wfTermB] using hhead.2 h2, htail⟩
    · obtain ⟨rfl, rfl⟩ : Term.wild tok.line tok.col = t ∧ ts2 = ts' := by
        simpa using h
      exact ⟨rfl, htail⟩
    all_goals exact Except.noConfusion h

theorem parse_more_terms_wf {fuel : Nat} {ts : List Token} {r : List Term}
    {ts' : List Token} (hok : IdentsOk ts)
    (h : parse_more_terms fuel ts = .ok (r, ts')) :
    (∀ t ∈ r, wfTermB t = true) ∧ IdentsOk ts' := by
  induction fuel generalizing ts r ts' with
  | zero => exact Except.noConfusion h
  | succ fuel ih =>
    rw [parse_more_terms] at h
    cases hm : matchTok .comma ts with
    | none =>
      simp only [hm] at h
      obtain ⟨rfl, rfl⟩ : [] = r ∧ ts = ts' := by simpa using h
      exact ⟨by simp, hok⟩
    | some p =>
      obtain ⟨ctok, ts1⟩ := p
      simp only [hm] at h
      obtain ⟨hcons, -⟩ := matchTok_some hm
      have hok1 : IdentsOk ts1 := IdentsOk_cons (hcons ▸ hok)
      cases hp : parse_term ts1 with
      | error e => simp [hp] at h
      | ok q =>
        obtain ⟨t, ts2⟩ := q
        simp only [hp] at h
        obtain ⟨hwt, hok2⟩ := parse_term_wf hok1 hp
        cases hrec : parse_more_terms fuel ts2 with
        | error e => simp [hrec] at h
        | ok q2 =>
          obtain ⟨more, ts3⟩ := q2
          simp only [hrec] at h
          obtain ⟨hwm, hok3⟩ := ih hok2 hrec
          obtain ⟨rfl, rfl⟩ : t :: more = r ∧ ts3 = ts' := by simpa using h
          refine ⟨?_, hok3⟩
          intro x hx
          rcases List.mem_cons.mp hx with rfl | hm2
          · exact hwt
          · exact hwm x hm2

theorem parse_atom_wf {ts : List Token} {a : Atom} {ts' : List Token}
    (hok : IdentsOk ts) (h : parse_atom ts = .ok (a, ts')) :
    wfAtomB a = true ∧ IdentsOk ts' := by
  rw [parse_atom] at h
  cases hE : expectTok .identLower ts with
  | error e => simp [hE] at h
  | ok p =>
    obtain ⟨tok, ts1⟩ := p
    simp only [hE] at h
    obtain ⟨hcons, hty⟩ := expectTok_ok hE
    subst hcons
    have hpred : wfLowerB tok.value = true :=
      (hok tok (List.mem_cons_self tok ts1)).1 hty
    have hok1 := IdentsOk_cons hok
    cases hm : matchTok .lparen ts1 with
    | none =>
      simp only [hm] at h
      obtain ⟨rfl, rfl⟩ :
          (⟨tok.value, [], tok.line, tok.col⟩ : Atom) = a ∧ ts1 = ts' := by
        simpa using h
      exact ⟨by simp [wfAtomB, hpred], hok1⟩
    | some p2 =>
      obtain ⟨ltok, ts2⟩ := p2
      simp only [hm] at h
      obtain ⟨hcons2, -⟩ := matchTok_some hm
      have hok2 : IdentsOk ts2 := IdentsOk_cons (hcons2 ▸ hok1)
      cases hp : parse_term ts2 with
      | error e => simp [hp] at h
      | ok q =>
        obtain ⟨t, ts3⟩ := q
        simp only [hp] at h
        obtain ⟨hwt, hok3⟩ := parse_term_wf hok2 hp
        cases hmt : parse_more_terms (ts3.length + 1) ts3 with
        | error e => simp [hmt] at h
        | ok q2 =>
          obtain ⟨more, ts4⟩ := q2
          simp only [hmt] at h
          obtain ⟨hwts, hok4⟩ := parse_more_terms_wf hok3 hmt
          cases hR : expectTok .rparen ts4 with
          | error e => simp [hR] at h
          | ok q3 =>
            obtain ⟨rtok, ts5⟩ := q3
            simp only [hR] at h
            obtain ⟨hcons5, -⟩ := expectTok_ok hR
            have hok5 : IdentsOk ts5 := IdentsOk_cons (hcons5 ▸ hok4)
            obtain ⟨rfl, rfl⟩ :
                (⟨tok.value, t :: more, tok.line, tok.col⟩ : Atom) = a ∧ ts5 = ts' := by
              simpa using h
            refine ⟨?_, hok5⟩
            simp only [wfAtomB, List.all_cons]
            rw [hpred, hwt]
            simp only [Bool.true_and]
            rw [List.all_eq_true]
            exact hwts

theorem parse_premise_wf {ts : List Token} {p : Premise} {ts' : List Token}
    (hok : IdentsOk ts) (h : parse_premise ts = .ok (p, ts')) :
    wfPremiseB p = true ∧ IdentsOk ts' := by
  cases ts with
  | nil => simp [parse_premise] at h
  | cons tok tsr =>
    have htail := IdentsOk_cons hok
    rw [parse_premise] at h
    by_cases hnot : tok.type = TokType.notKw
    · rw [if_pos hnot] at h
      cases ha : parse_atom tsr with
      | error e => simp [ha] at h
      | ok q =>
        obtain ⟨a, ts2⟩ := q
        simp only [ha] at h
        obtain ⟨hwa, hok2⟩ := parse_atom_wf htail ha
        obtain ⟨rfl, rfl⟩ : Premise.neg a a.line a.col = p ∧ ts2 = ts' := by
          simpa using h
        exact ⟨hwa, hok2⟩
    · rw [if_neg hnot] at h
      by_cases hty : tok.type = TokType.identLower
      · rw [if_pos hty] at h
        cases ha : parse_atom (tok :: tsr) with
        | error e => simp [ha] at h
        | ok q =>
          obtain ⟨a, ts1⟩ := q
          simp only [ha] at h
          obtain ⟨hwa, hok1⟩ := parse_atom_wf hok ha
          have hwpred : wfLowerB a.predicate = true := by
            have := hwa
            simp only [wfAtomB, Bool.and_eq_true] at this
            exact this.1
          by_cases he : peekType ts1 = some TokType.equals
          · rw [if_pos he] at h
            by_cases hargs : a.args ≠ []
            · rw [if_pos hargs] at h
              exact Except.noConfusion h
            · rw [if_neg hargs] at h
              cases hE : expectTok .equals ts1 with
              | error e => simp [hE] at h
              | ok q2 =>
                obtain ⟨etok, ts2⟩ := q2
                simp only [hE] at h
                obtain ⟨hcons2, -⟩ := expectTok_ok hE
                have hok2 : IdentsOk ts2 := IdentsOk_cons (hcons2 ▸ hok1)
                cases hr : parse_term ts2 with
                | error e => simp [hr] at h
                | ok q3 =>
                  obtain ⟨r, ts3⟩ := q3
                  simp only [hr] at h
                  obtain ⟨hwr, hok3⟩ := parse_term_wf hok2 hr
                  obtain ⟨rfl, rfl⟩ :
                      Premise.eq (Term.const a.predicate a.line a.col) r tok.line
                        tok.col = p ∧ ts3 = ts' := by
                    simpa using h
                  refine ⟨?_, hok3⟩
                  rw [wfPremiseB, wfTermB, hwpred, hwr]
                  rfl
          · rw [if_neg he] at h
            by_cases hne : peekType ts1 = some TokType.notEquals
            · rw [if_pos hne] at h
              by_cases hargs : a.args ≠ []
              · rw [if_pos hargs] at h
                exact Except.noConfusion h
              · rw [if_neg hargs] at h
                cases hE : expectTok .notEquals ts1 with
                | error e => simp [hE] at h
                | ok q2 =>
                  obtain ⟨etok, ts2⟩ := q2
                  simp only [hE] at h
                  obtain ⟨hcons2, -⟩ := expectTok_ok hE
                  have hok2 : IdentsOk ts2 := IdentsOk_cons (hcons2 ▸ hok1)
                  cases hr : parse_term ts2 with
                  | error e => simp [hr] at h
                  | ok q3 =>
                    obtain ⟨r, ts3⟩ := q3
                    simp only [hr] at h
                    obtain ⟨hwr, hok3⟩ := parse_term_wf hok2 hr
                    obtain ⟨rfl, rfl⟩ :
                        Premise.ne (Term.const a.predicate a.line a.col) r tok.line
                          tok.col = p ∧ ts3 = ts' := by
                      simpa using h
                    refine ⟨?_, hok3⟩
                    rw [wfPremiseB, wfTermB, hwpred, hwr]
                    rfl
            · rw [if_neg hne] at h
              obtain ⟨rfl, rfl⟩ : Premise.atom a = p ∧ ts1 = ts' := by simpa using h
              exact ⟨hwa, hok1⟩
      · rw [if_neg hty] at h
        cases hl : parse_term (tok :: tsr) with
        | error e => simp [hl] at h
        | ok q =>
          obtain ⟨l, ts1⟩ := q
          simp only [hl] at h
          obtain ⟨hwl, hok1⟩ := parse_term_wf hok hl
          cases hmq : matchTok .equals ts1 with
          | some p2 =>
            obtain ⟨etok, ts2⟩ := p2
            simp only [hmq] at h
            obtain ⟨hcons2, -⟩ := matchTok_some hmq
            have hok2 : IdentsOk ts2 := IdentsOk_cons (hcons2 ▸ hok1)
            cases hr : parse_term ts2 with
            | error e => simp [hr] at h
            | ok q3 =>
              obtain ⟨r, ts3⟩ := q3
              simp only [hr] at h
              obtain ⟨hwr, hok3⟩ := parse_term_wf hok2 hr
              obtain ⟨rfl, rfl⟩ :
                  Premise.eq l r tok.line tok.col = p ∧ ts3 = ts' := by
                simpa using h
              exact ⟨by rw [wfPremiseB, hwl, hwr]; rfl, hok3⟩
          | none =>
            simp only [hmq] at h
            cases hmn : matchTok .notEquals ts1 with
            | some p2 =>
              obtain ⟨etok, ts2⟩ := p2
              simp only [hmn] at h
              obtain ⟨hcons2, -⟩ := matchTok_some hmn
              have hok2 : IdentsOk ts2 := IdentsOk_cons (hcons2 ▸ hok1)
              cases hr : parse_term ts2 with
              | error e => simp [hr] at h
              | ok q3 =>
                obtain ⟨r, ts3⟩ := q3
                simp only [hr] at h
                obtain ⟨hwr, hok3⟩ := parse_term_wf hok2 hr
                obtain ⟨rfl, rfl⟩ :
                    Premise.ne l r tok.line tok.col = p ∧ ts3 = ts' := by
                  simpa using h
                exact ⟨by rw [wfPremiseB, hwl, hwr]; rfl, hok3⟩
            | none =>
              simp only [hmn] at h
              cases ts1 with
              | nil => exact Except.noConfusion h
              | cons cur ts2 => exact Except.noConfusion h

theorem parse_more_premises_wf {fuel : Nat} {ts : List Token} {r : List Premise}
    {ts' : List Token} (hok : IdentsOk ts)
    (h : parse_more_premises fuel ts = .ok (r, ts')) :
    (∀ x ∈ r, wfPremiseB x = true) ∧ IdentsOk ts' := by
  induction fuel generalizing ts r ts' with
  | zero => exact Except.noConfusion h
  | succ fuel ih =>
    rw [parse_more_premises] at h
    cases hm : matchTok .comma ts with
    | none =>
      simp only [hm] at h
      obtain ⟨rfl, rfl⟩ : [] = r ∧ ts = ts' := by simpa using h
      exact ⟨by simp, hok⟩
    | some p =>
      obtain ⟨ctok, ts1⟩ := p
      simp only [hm] at h
      obtain ⟨hcons, -⟩ := matchTok_some hm
      have hok1 : IdentsOk ts1 := IdentsOk_cons (hcons ▸ hok)
      cases hp : parse_premise ts1 with
      | error e => simp [hp] at h
      | ok q =>
        obtain ⟨t, ts2⟩ := q
        simp only [hp] at h
        obtain ⟨hwt, hok2⟩ := parse_premise_wf hok1 hp
        cases hrec : parse_more_premises fuel ts2 with
        | error e => simp [hrec] at h
        | ok q2 =>
          obtain ⟨more, ts3⟩ := q2
          simp only [hrec] at h
          obtain ⟨hwm, hok3⟩ := ih hok2 hrec
          obtain ⟨rfl, rfl⟩ : t :: more = r ∧ ts3 = ts' := by simpa using h
          refine ⟨?_, hok3⟩
          intro x hx
          rcases List.mem_cons.mp hx with rfl | hm2
          · exact hwt
          · exact hwm x hm2

theorem parse_clause_wf {ts : List Token} {c : Clause} {ts' : List Token}
    (hok : IdentsOk ts) (h : parse_clause ts = .ok (c, ts')) :
    wfClauseB c = true ∧ IdentsOk ts' := by
  rw [parse_clause] at h
  cases ha : parse_atom ts with
  | error e => simp [ha] at h
  | ok q =>
    obtain ⟨head, ts1⟩ := q
    simp only [ha] at h
    obtain ⟨hwh, hok1⟩ := parse_atom_wf hok ha
    cases hd : matchTok .dot ts1 with
    | some p =>
      obtain ⟨dtok, ts2⟩ := p
      simp only [hd] at h
      obtain ⟨hcons, -⟩ := matchTok_some hd
      obtain ⟨rfl, rfl⟩ : Clause.fact head head.line head.col = c ∧ ts2 = ts' := by
        simpa using h
      exact ⟨hwh, IdentsOk_cons (hcons ▸ hok1)⟩
    | none =>
      simp only [hd] at h
      cases hq : matchTok .question ts1 with
      | some p =>
        obtain ⟨qtok, ts2⟩ := p
        simp only [hq] at h
        obtain ⟨hcons, -⟩ := matchTok_some hq
        obtain ⟨rfl, rfl⟩ : Clause.query head head.line head.col = c ∧ ts2 = ts' := by
          simpa using h
        exact ⟨hwh, IdentsOk_cons (hcons ▸ hok1)⟩
      | none =>
        simp only [hq] at h
        cases hc : expectTok .colonDash ts1 with
        | error e => simp [hc] at h
        | ok q2 =>
          obtain ⟨ctok, ts2⟩ := q2
          simp only [hc] at h
          obtain ⟨hcons, -⟩ := expectTok_ok hc
          have hok2 : IdentsOk ts2 := IdentsOk_cons (hcons ▸ hok1)
          cases hp : parse_premise ts2 with
          | error e => simp [hp] at h
          | ok q3 =>
            obtain ⟨p, ts3⟩ := q3
            simp only [hp] at h
            obtain ⟨hwp, hok3⟩ := parse_premise_wf hok2 hp
            cases hmp : parse_more_premises (ts3.length + 1) ts3 with
            | error e => simp [hmp] at h
            | ok q4 =>
              obtain ⟨ps, ts4⟩ := q4
              simp only [hmp] at h
              obtain ⟨hwps, hok4⟩ := parse_more_premises_wf hok3 hmp
              cases hD : expectTok .dot ts4 with
              | error e => simp [hD] at h
              | ok q5 =>
                obtain ⟨dtok, ts5⟩ := q5
                simp only [hD] at h
                obtain ⟨hcons5, -⟩ := expectTok_ok hD
                obtain ⟨rfl, rfl⟩ :
                    Clause.rule head (p :: ps) head.line head.col = c ∧ ts5 = ts' := by
                  simpa using h
                refine ⟨?_, IdentsOk_cons (hcons5 ▸ hok4)⟩
                simp only [wfClauseB, List.all_cons, Bool.and_eq_true]
                refine ⟨⟨hwh, by simp⟩, hwp, ?_⟩
                rw [List.all_eq_true]
                exact hwps

theorem parse_program_aux_wf {fuel : Nat} {ts : List Token} {cls : List Clause}
    {ts' : List Token} (hok : IdentsOk ts)
    (h : parse_program_aux fuel ts = .ok (cls, ts')) :
    ∀ c ∈ cls, wfClauseB c = true := by
  induction fuel generalizing ts cls ts' with
  | zero => exact Except.noConfusion h
  | succ fuel ih =>
    rw [parse_program_aux] at h
    by_cases he : peekType ts = some TokType.eof
    · rw [if_pos he] at h
      obtain ⟨rfl, -⟩ : [] = cls ∧ ts = ts' := by simpa using h
      simp
    · rw [if_neg he] at h
      cases hc : parse_clause ts with
      | error e => simp [hc] at h
      | ok q =>
        obtain ⟨c, ts1⟩ := q
        simp only [hc] at h
        obtain ⟨hwc, hok1⟩ := parse_clause_wf hok hc
        cases hrec : parse_program_aux fuel ts1 with
        | error e => simp [hrec] at h
        | ok q2 =>
          obtain ⟨cls2, ts2⟩ := q2
          simp only [hrec] at h
          obtain ⟨rfl, -⟩ : c :: cls2 = cls ∧ ts2 = ts' := by simpa using h
          intro x hx
          rcases List.mem_cons.mp hx with rfl | hm
          · exact hwc
          · exact ih hok1 hrec x hm

theorem parse_program_wf {ts : List Token} {P : Program} (hok : IdentsOk ts)
    (h : parse_program ts = .ok P) : wfProgramB P = true := by
  rw [parse_program] at h
  cases hA : parse_program_aux (ts.length + 1) ts with
  | error e => simp [hA] at h
  | ok q =>
    obtain ⟨cls, ts1⟩ := q
    simp only [hA] at h
    cases hE : expectTok .eof ts1 with
    | error e => simp [hE] at h
    | ok q2 =>
      obtain ⟨etok, ts2⟩ := q2
      simp only [hE] at h
      obtain rfl : (⟨cls⟩ : Program) = P := by simpa using h
      simp only [wfProgramB]
      rw [List.all_eq_true]
      exact parse_program_aux_wf hok hA

/-- Every program check_syntax accepts is well formed: its predicates,
constants and variables carry exactly the identifier shapes the lexer can
produce, and every rule body is non-empty. -/
theorem checkSyntaxL_wf {cs : List Char} {P : Program}
    (h : checkSyntaxL cs = .ok P) : wfProgramB P = true := by
  rw [checkSyntaxL] at h
  cases ht : tokenize cs with
  | error e => simp [ht] at h
  | ok ts =>
    simp only [ht] at h
    cases hp : parse_program ts with
    | error e => simp [hp] at h
    | ok P2 =>
      simp only [hp] at h
      obtain rfl : P2 = P := by simpa using h
      exact parse_program_wf (tokenizeAux_identsOk ht) hp

theorem joinSep_cons_eq (sep x : List Char) (xs : List (List Char)) :
    joinSep sep (x :: xs) = x ++ joinTail sep xs := by
  induction xs generalizing x with
  | nil => simp [joinSep, joinTail]
  | cons y ys ih =>
    rw [show joinSep sep (x :: y :: ys) = x ++ sep ++ joinSep sep (y :: ys) from rfl]
    rw [ih y, joinTail]
    simp [List.append_assoc]

theorem tokenize_eq_from (cs : List Char) : tokenize cs = tokenizeFrom cs 1 1 := rfl

theorem tokenizeFrom_nil (l c : Nat) : tokenizeFrom [] l c = .ok [⟨.eof, [], l, c⟩] := rfl

theorem tokenizeFrom_emit {cs rest : List Char} {l c l2 c2 : Nat} {t : Token}
    (h : lexStep cs l c = .emit t rest l2 c2) :
    tokenizeFrom cs l c = (tokenizeFrom rest l2 c2).map (fun ts => t :: ts) := by
  have hlen := lexStep_emit_length h
  rw [tokenizeFrom, tokenizeFrom, tokenizeAux]
  simp only [h]
  rw [@tokenizeAux_fuel cs.length (rest.length + 1) rest l2 c2 (by omega) (by omega)]

theorem tokenizeFrom_skip {cs rest : List Char} {l c l2 c2 : Nat}
    (h : lexStep cs l c = .skip rest l2 c2) :
    tokenizeFrom cs l c = tokenizeFrom rest l2 c2 := by
  have hlen := lexStep_skip_length h
  rw [tokenizeFrom, tokenizeFrom, tokenizeAux]
  simp only [h]
  exact tokenizeAux_fuel rest l2 c2 (by omega) (by omega)

theorem except_map_map (f g : List Token → List Token)
    (x : Except LexError (List Token)) :
    (x.map f).map g = x.map (fun ts => g (f ts)) := by
  cases x <;> rfl

/-! Literal lexer steps: each fixed-text token is one lexStep. -/

theorem lexStep_space (rest : List Char) (l c : Nat) :
    lexStep (' ' :: rest) l c = .skip rest l (c + 1) := rfl

theorem lexStep_newline (rest : List Char) (l c : Nat) :
    lexStep ('\n' :: rest) l c = .skip rest (l + 1) 1 := rfl

theorem lexStep_lparen (rest : List Char) (l c : Nat) :
    lexStep ('(' :: rest) l c = .emit ⟨.lparen, ['('], l, c⟩ rest l (c + 1) := rfl

theorem lexStep_rparen (rest : List Char) (l c : Nat) :
    lexStep (')' :: rest) l c = .emit ⟨.rparen, [')'], l, c⟩ rest l (c + 1) := rfl

theorem lexStep_comma (rest : List Char) (l c : Nat) :
    lexStep (',' :: rest) l c = .emit ⟨.comma, [','], l, c⟩ rest l (c + 1) := rfl

theorem lexStep_dot (rest : List Char) (l c : Nat) :
    lexStep ('.' :: rest) l c = .emit ⟨.dot, ['.'], l, c⟩ rest l (c + 1) := rfl

theorem lexStep_question (rest : List Char) (l c : Nat) :
    lexStep ('?' :: rest) l c = .emit ⟨.question, ['?'], l, c⟩ rest l (c + 1) := rfl

theorem lexStep_equals (rest : List Char) (l c : Nat) :
    lexStep ('=' :: rest) l c = .emit ⟨.equals, ['='], l, c⟩ rest l (c + 1) := rfl

theorem lexStep_notEquals (rest : List Char) (l c : Nat) :
    lexStep ('!' :: '=' :: rest) l c =
      .emit ⟨.notEquals, ['!', '='], l, c⟩ rest l (c + 2) := rfl

theorem lexStep_colonDash (rest : List Char) (l c : Nat) :
    lexStep (':' :: '-' :: rest) l c =
      .emit ⟨.colonDash, [':', '-'], l, c⟩ rest l (c + 2) := rfl

/-- A lone underscore (not followed by an identifier character) is a
WILDCARD token. -/
theorem lexStep_wildcard {rest : List Char} (hb : identCont rest = false) (l c : Nat) :
    lexStep ('_' :: rest) l c = .emit ⟨.wildcard, ['_'], l, c⟩ rest l (c + 1) := by
  rw [lexStep]
  rw [if_neg (by decide), if_neg (by decide), if_neg (by decide), if_neg (by decide),
    if_neg (by decide), if_neg (by decide), if_neg (by decide), if_neg (by decide),
    if_neg (by decide), if_neg (by decide), if_neg (by decide)]
  rw [if_pos ⟨rfl, hb⟩]

/-- readIdent stops immediately on a non-identifier head. -/
theorem readIdent_stop {cs : List Char} (h : identCont cs = false) :
    readIdent cs = ([], cs) := by
  cases cs with
  | nil => rfl
  | cons c cs2 =>
    have : isIdentChar c = false := by simpa [identCont] using h
    simp [readIdent, this]

/-- readIdent consumes exactly a run of identifier characters followed by a
non-identifier boundary. -/
theorem readIdent_append {pre rest : List Char}
    (hpre : ∀ x ∈ pre, isIdentChar x = true) (hb : identCont rest = false) :
    readIdent (pre ++ rest) = (pre, rest) := by
  induction pre with
  | nil => simpa using readIdent_stop hb
  | cons x pre ih =>
    have hx : isIdentChar x = true := hpre x (List.mem_cons_self x pre)
    have ihr := ih (fun y hy => hpre y (List.mem_cons_of_mem x hy))
    simp [readIdent, hx, ihr]

/-- Lexing an identifier: one lexStep consumes the entire run and
classifies it by the keyword test, then the case of the first character. -/
theorem lexStep_ident {c0 : Char} {pre rest : List Char} {l c : Nat}
    (hstart : c0.isAlpha = true ∨ c0 = '_')
    (hpre : ∀ x ∈ pre, isIdentChar x = true)
    (hb : identCont rest = false)
    (hwild : c0 = '_' → pre ≠ []) :
    lexStep ((c0 :: pre) ++ rest) l c =
      (if c0 :: pre = "not".data then
        .emit ⟨.notKw, c0 :: pre, l, c⟩ rest l (c + (c0 :: pre).length)
      else if c0.isUpper then
        .emit ⟨.identUpper, c0 :: pre, l, c⟩ rest l (c + (c0 :: pre).length)
      else
        .emit ⟨.identLower, c0 :: pre, l, c⟩ rest l (c + (c0 :: pre).length)) := by
  have hns : ∀ d : Char, d ≠ c0 → ¬c0 = d := fun d hd hc => hd hc.symm
  have hnotpunct : ∀ d : Char, d.isAlpha = false → d ≠ '_' → ¬c0 = d := by
    intro d hda hdu hc
    subst hc
    rcases hstart with h | h
    · rw [h] at hda
      exact Bool.noConfusion hda
    · exact hdu h
  rw [List.cons_append, lexStep]
  rw [if_neg (by
    rintro (rfl | rfl | rfl) <;> rcases hstart with h | h <;> simp_all)]
  rw [if_neg (hnotpunct '\n' (by decide) (by decide))]
  rw [if_neg (hnotpunct '%' (by decide) (by decide))]
  rw [if_neg (hnotpunct '(' (by decide) (by decide))]
  rw [if_neg (hnotpunct ')' (by decide) (by decide))]
  rw [if_neg (hnotpunct ',' (by decide) (by decide))]
  rw [if_neg (hnotpunct '.' (by decide) (by decide))]
  rw [if_neg (hnotpunct '?' (by decide) (by decide))]
  rw [if_neg (hnotpunct '=' (by decide) (by decide))]
  rw [if_neg (hnotpunct '!' (by decide) (by decide))]
  rw [if_neg (hnotpunct ':' (by decide) (by decide))]
  rw [if_neg (by
    rintro ⟨rfl, hic⟩
    obtain ⟨y, pre2, rfl⟩ : ∃ y pre2, pre = y :: pre2 := by
      cases pre with
      | nil => exact absurd rfl (hwild rfl)
      | cons y pre2 => exact ⟨y, pre2, rfl⟩
    rw [List.cons_append] at hic
    have : isIdentChar y = true := hpre y (List.mem_cons_self y pre2)
    simp [identCont, this] at hic)]
  rw [if_pos hstart]
  rw [readIdent_append hpre hb]

theorem lexStep_identLower {n rest : List Char} {l c : Nat}
    (hwf : wfLowerB n = true) (hb : identCont rest = false) :
    lexStep (n ++ rest) l c = .emit ⟨.identLower, n, l, c⟩ rest l (c + n.length) := by
  cases n with
  | nil => exact absurd hwf (by simp [wfLowerB])
  | cons c0 pre =>
    rw [wfLowerB] at hwf
    simp only [Bool.and_eq_true, Bool.or_eq_true, Bool.not_eq_true', beq_eq_false_iff_ne,
      ne_eq, decide_eq_true_eq, List.all_eq_true] at hwf
    obtain ⟨⟨⟨⟨hstart, hup⟩, hall⟩, hnot⟩, hlone⟩ := hwf
    have hwild : c0 = '_' → pre ≠ [] := by
      rintro rfl rfl
      exact hlone rfl
    rw [lexStep_ident hstart (fun x hx => hall x (List.mem_cons_of_mem c0 hx)) hb hwild]
    rw [if_neg hnot, if_neg (by rw [hup]; exact Bool.false_ne_true)]

theorem lexStep_identUpper {n rest : List Char} {l c : Nat}
    (hwf : wfUpperB n = true) (hb : identCont rest = false) :
    lexStep (n ++ rest) l c = .emit ⟨.identUpper, n, l, c⟩ rest l (c + n.length) := by
  cases n with
  | nil => exact absurd hwf (by simp [wfUpperB])
  | cons c0 pre =>
    rw [wfUpperB] at hwf
    simp only [Bool.and_eq_true, List.all_eq_true] at hwf
    obtain ⟨hup, hall⟩ := hwf
    have hstart : c0.isAlpha = true ∨ c0 = '_' := by
      left
      simp [Char.isAlpha, hup]
    have hwild : c0 = '_' → pre ≠ [] := by
      rintro rfl
      exact absurd hup (by decide)
    rw [lexStep_ident hstart (fun x hx => hall x (List.mem_cons_of_mem c0 hx)) hb hwild]
    rw [if_neg (by
      intro he
      have : c0 = 'n' := by
        have := congrArg (fun xs => List.headD xs ' ') he
        simpa using this
      rw [this] at hup
      exact absurd hup (by decide))]
    rw [if_pos hup]

theorem lexStep_notKw {rest : List Char} (hb : identCont rest = false) (l c : Nat) :
    lexStep ("not".data ++ rest) l c =
      .emit ⟨.notKw, "not".data, l, c⟩ rest l (c + 3) := by
  rw [show ("not".data : List Char) = 'n' :: ['o', 't'] from rfl]
  rw [lexStep_ident (Or.inl (by decide)) (by decide) hb (fun h => absurd h (by decide))]
  rw [if_pos rfl]
  rfl

theorem map_nil_append (x : Except LexError (List Token)) :
    x.map (fun ts => ([] : List Token) ++ ts) = x := by
  cases x <;> rfl

/-- Lexing a rendered term, with the next character not an identifier
character. -/
theorem lexTerm (t : Term) (hwf : wfTermB t = true) (rest : List Char)
    (hb : identCont rest = false) (l c : Nat) :
    ∃ toks c2, tokenizeFrom (t.render ++ rest) l c =
      (tokenizeFrom rest l c2).map (fun ts => toks ++ ts) ∧ keysOf toks = t.keys := by
  cases t with
  | const n ln cn =>
    refine ⟨[⟨.identLower, n, l, c⟩], c + n.length, ?_, rfl⟩
    exact tokenizeFrom_emit (lexStep_identLower (by simpa [wfTermB] using hwf) hb)
  | var n ln cn =>
    refine ⟨[⟨.identUpper, n, l, c⟩], c + n.length, ?_, rfl⟩
    exact tokenizeFrom_emit (lexStep_identUpper (by simpa [wfTermB] using hwf) hb)
  | wild ln cn =>
    refine ⟨[⟨.wildcard, ['_'], l, c⟩], c + 1, ?_, rfl⟩
    exact tokenizeFrom_emit (lexStep_wildcard hb l c)

theorem identCont_joinTail_args (f : Term → List Char) (args : List Term)
    {rest : List Char} (hb : identCont rest = false) :
    identCont (joinTail ", ".data (args.map f) ++ rest) = false := by
  cases args with
  | nil => simpa [joinTail] using hb
  | cons a as => rfl

/-- Lexing the comma-separated tail of an argument list. -/
theorem lexArgsTail (args : List Term) (hwf : ∀ t ∈ args, wfTermB t = true)
    (rest : List Char) (hb : identCont rest = false) (l c : Nat) :
    ∃ toks c2, tokenizeFrom (joinTail ", ".data (args.map Term.render) ++ rest) l c =
      (tokenizeFrom rest l c2).map (fun ts => toks ++ ts) ∧
      keysOf toks = termsTailKeys args := by
  induction args generalizing l c with
  | nil =>
    refine ⟨[], c, ?_, rfl⟩
    rw [show joinTail ", ".data ([].map Term.render) = ([] : List Char) from rfl]
    rw [List.nil_append, map_nil_append]
  | cons t args ih =>
    have hbj : identCont (joinTail ", ".data (args.map Term.render) ++ rest) = false :=
      identCont_joinTail_args Term.render args hb
    have estr : joinTail ", ".data ((t :: args).map Term.render) ++ rest =
        ',' :: ' ' ::
          (t.render ++ (joinTail ", ".data (args.map Term.render) ++ rest)) := by
      simp [joinTail, List.append_assoc]
    rw [estr]
    rw [tokenizeFrom_emit (lexStep_comma _ l c)]
    rw [tokenizeFrom_skip (lexStep_space _ l (c + 1))]
    obtain ⟨tk, c3, ht, hkt⟩ := lexTerm t (hwf t (List.mem_cons_self t args)) _ hbj l (c + 2)
    rw [ht]
    obtain ⟨tks, c4, hts, hkts⟩ := ih (fun x hx => hwf x (List.mem_cons_of_mem t hx)) l c3
    rw [hts]
    refine ⟨(⟨.comma, [','], l, c⟩ :: tk) ++ tks, c4, ?_, ?_⟩
    · rw [except_map_map, except_map_map]
      cases tokenizeFrom rest l c4 <;> simp [Except.map, List.append_assoc]
    · simp only [keysOf, List.map_append, List.map_cons]
      rw [termsTailKeys]
      simp only [keysOf] at hkt hkts
      rw [hkt, hkts]
      simp [Token.key]

/-- Lexing a rendered atom; after a zero-argument atom the next character
must not be an identifier character. -/
theorem lexAtom (a : Atom) (hwf : wfAtomB a = true) (rest : List Char)
    (hb : a.args = [] → identCont rest = false) (l c : Nat) :
    ∃ toks c2, tokenizeFrom (a.render ++ rest) l c =
      (tokenizeFrom rest l c2).map (fun ts => toks ++ ts) ∧ keysOf toks = a.keys := by
  obtain ⟨pred, args, ln, cn⟩ := a
  rw [wfAtomB] at hwf
  simp only [Bool.and_eq_true, List.all_eq_true] at hwf
  obtain ⟨hpred, hargs⟩ := hwf
  cases args with
  | nil =>
    refine ⟨[⟨.identLower, pred, l, c⟩], c + pred.length, ?_, rfl⟩
    exact tokenizeFrom_emit (lexStep_identLower hpred (hb rfl))
  | cons t ts =>
    have estr : Atom.render ⟨pred, t :: ts, ln, cn⟩ ++ rest =
        pred ++ ('(' ::
          (t.render ++ (joinTail ", ".data (ts.map Term.render) ++ (')' :: rest)))) := by
      simp only [Atom.render]
      rw [if_neg (by simp)]
      simp only [List.map_cons]
      rw [joinSep_cons_eq]
      simp [List.append_assoc]
    rw [estr]
    rw [tokenizeFrom_emit (lexStep_identLower hpred (by rfl))]
    rw [tokenizeFrom_emit (lexStep_lparen _ l (c + pred.length))]
    have hbt : identCont (joinTail ", ".data (ts.map Term.render) ++ (')' :: rest)) =
        false := identCont_joinTail_args Term.render ts (by rfl)
    obtain ⟨tk, c3, ht, hkt⟩ :=
      lexTerm t (hargs t (List.mem_cons_self t ts)) _ hbt l (c + pred.length + 1)
    rw [ht]
    obtain ⟨tks, c4, hts, hkts⟩ :=
      lexArgsTail ts (fun x hx => hargs x (List.mem_cons_of_mem t hx)) (')' :: rest)
        (by rfl) l c3
    rw [hts]
    rw [tokenizeFrom_emit (lexStep_rparen rest l c4)]
    refine ⟨⟨.identLower, pred, l, c⟩ :: ⟨.lparen, ['('], l, c + pred.length⟩ ::
      (tk ++ (tks ++ [⟨.rparen, [')'], l, c4⟩])), c4 + 1, ?_, ?_⟩
    · rw [except_map_map, except_map_map, except_map_map]
      cases tokenizeFrom rest l (c4 + 1) <;> simp [Except.map, List.append_assoc]
    · rw [Atom.keys]
      simp only [keysOf, List.map_cons, List.map_append] at hkt hkts ⊢
      rw [hkt, hkts]
      simp [Token.key, List.append_assoc]

theorem identCont_joinTail_prems (ps : List Premise) {rest : List Char}
    (hb : identCont rest = false) :
    identCont (joinTail ", ".data (ps.map Premise.render) ++ rest) = false := by
  cases ps with
  | nil => simpa [joinTail] using hb
  | cons a as => rfl

/-- Lexing a rendered premise; the next character must not be an identifier
character. -/
theorem lexPremise (p : Premise) (hwf : wfPremiseB p = true) (rest : List Char)
    (hb : identCont rest = false) (l c : Nat) :
    ∃ toks c2, tokenizeFrom (p.render ++ rest) l c =
      (tokenizeFrom rest l c2).map (fun ts => toks ++ ts) ∧ keysOf toks = p.keys := by
  cases p with
  | atom a =>
    obtain ⟨toks, c2, h1, h2⟩ :=
      lexAtom a (by simpa [wfPremiseB] using hwf) rest (fun _ => hb) l c
    exact ⟨toks, c2, h1, h2⟩
  | neg a ln cn =>
    rw [show Premise.render (.neg a ln cn) ++ rest =
      "not".data ++ (' ' :: (a.render ++ rest)) from rfl]
    rw [tokenizeFrom_emit (lexStep_notKw (by rfl) l c)]
    rw [tokenizeFrom_skip (lexStep_space _ l (c + 3))]
    obtain ⟨toks, c2, h1, h2⟩ :=
      lexAtom a (by simpa [wfPremiseB] using hwf) rest (fun _ => hb) l (c + 4)
    rw [h1]
    refine ⟨⟨.notKw, "not".data, l, c⟩ :: toks, c2, ?_, ?_⟩
    · rw [except_map_map]
      cases tokenizeFrom rest l c2 <;> simp [Except.map]
    · rw [Premise.keys]
      simp only [keysOf, List.map_cons] at h2 ⊢
      rw [h2]
      rfl
  | eq lt rt ln cn =>
    rw [wfPremiseB] at hwf
    simp only [Bool.and_eq_true] at hwf
    obtain ⟨hl, hr⟩ := hwf
    have estr : Premise.render (.eq lt rt ln cn) ++ rest =
        lt.render ++ ('=' :: (rt.render ++ rest)) := by
      rw [Premise.render]
      simp [List.append_assoc]
    rw [estr]
    obtain ⟨tl, c2, h1, hk1⟩ := lexTerm lt hl ('=' :: (rt.render ++ rest)) (by rfl) l c
    rw [h1]
    rw [tokenizeFrom_emit (lexStep_equals _ l c2)]
    obtain ⟨tr, c3, h2, hk2⟩ := lexTerm rt hr rest hb l (c2 + 1)
    rw [h2]
    refine ⟨tl ++ (⟨.equals, ['='], l, c2⟩ :: tr), c3, ?_, ?_⟩
    · rw [except_map_map, except_map_map]
      cases tokenizeFrom rest l c3 <;> simp [Except.map, List.append_assoc]
    · rw [Premise.keys]
      simp only [keysOf, List.map_append, List.map_cons] at hk1 hk2 ⊢
      rw [hk1, hk2]
      rfl
  | ne lt rt ln cn =>
    rw [wfPremiseB] at hwf
    simp only [Bool.and_eq_true] at hwf
    obtain ⟨hl, hr⟩ := hwf
    have estr : Premise.render (.ne lt rt ln cn) ++ rest =
        lt.render ++ ('!' :: '=' :: (rt.render ++ rest)) := by
      rw [Premise.render]
      simp [List.append_assoc]
    rw [estr]
    obtain ⟨tl, c2, h1, hk1⟩ :=
      lexTerm lt hl ('!' :: '=' :: (rt.render ++ rest)) (by rfl) l c
    rw [h1]
    rw [tokenizeFrom_emit (lexStep_notEquals _ l c2)]
    obtain ⟨tr, c3, h2, hk2⟩ := lexTerm rt hr rest hb l (c2 + 2)
    rw [h2]
    refine ⟨tl ++ (⟨.notEquals, ['!', '='], l, c2⟩ :: tr), c3, ?_, ?_⟩
    · rw [except_map_map, except_map_map]
      cases tokenizeFrom rest l c3 <;> simp [Except.map, List.append_assoc]
    · rw [Premise.keys]
      simp only [keysOf, List.map_append, List.map_cons] at hk1 hk2 ⊢
      rw [hk1, hk2]
      rfl

/-- Lexing the comma-separated tail of a rule body. -/
theorem lexPremisesTail (ps : List Premise) (hwf : ∀ x ∈ ps, wfPremiseB x = true)
    (rest : List Char) (hb : identCont rest = false) (l c : Nat) :
    ∃ toks c2, tokenizeFrom (joinTail ", ".data (ps.map Premise.render) ++ rest) l c =
      (tokenizeFrom rest l c2).map (fun ts => toks ++ ts) ∧
      keysOf toks = premisesTailKeys ps := by
  induction ps generalizing l c with
  | nil =>
    refine ⟨[], c, ?_, rfl⟩
    rw [show joinTail ", ".data ([].map Premise.render) = ([] : List Char) from rfl]
    rw [List.nil_append, map_nil_append]
  | cons p ps ih =>
    have hbj : identCont (joinTail ", ".data (ps.map Premise.render) ++ rest) = false :=
      identCont_joinTail_prems ps hb
    have estr : joinTail ", ".data ((p :: ps).map Premise.render) ++ rest =
        ',' :: ' ' ::
          (p.render ++ (joinTail ", ".data (ps.map Premise.render) ++ rest)) := by
      simp [joinTail, List.append_assoc]
    rw [estr]
    rw [tokenizeFrom_emit (lexStep_comma _ l c)]
    rw [tokenizeFrom_skip (lexStep_space _ l (c + 1))]
    obtain ⟨tk, c3, ht, hkt⟩ :=
      lexPremise p (hwf p (List.mem_cons_self p ps)) _ hbj l (c + 2)
    rw [ht]
    obtain ⟨tks, c4, hts, hkts⟩ := ih (fun x hx => hwf x (List.mem_cons_of_mem p hx)) l c3
    rw [hts]
    refine ⟨(⟨.comma, [','], l, c⟩ :: tk) ++ tks, c4, ?_, ?_⟩
    · rw [except_map_map, except_map_map]
      cases tokenizeFrom rest l c4 <;> simp [Except.map, List.append_assoc]
    · simp only [keysOf, List.map_append, List.map_cons]
      rw [premisesTailKeys]
      simp only [keysOf] at hkt hkts
      rw [hkt, hkts]
      simp [Token.key]

/-- Lexing a rendered clause: self-delimiting, no boundary needed after its
final . or ?. -/
theorem lexClause (cl : Clause) (hwf : wfClauseB cl = true) (rest : List Char)
    (l c : Nat) :
    ∃ toks c2, tokenizeFrom (cl.render ++ rest) l c =
      (tokenizeFrom rest l c2).map (fun ts => toks ++ ts) ∧ keysOf toks = cl.keys := by
  cases cl with
  | fact h ln cn =>
    have estr : Clause.render (.fact h ln cn) ++ rest = h.render ++ ('.' :: rest) := by
      rw [Clause.render]
      simp [List.append_assoc]
    rw [estr]
    obtain ⟨toks, c2, h1, hk⟩ :=
      lexAtom h (by simpa [wfClauseB] using hwf) ('.' :: rest) (fun _ => by rfl) l c
    rw [h1]
    rw [tokenizeFrom_emit (lexStep_dot rest l c2)]
    refine ⟨toks ++ [⟨.dot, ['.'], l, c2⟩], c2 + 1, ?_, ?_⟩
    · rw [except_map_map]
      cases tokenizeFrom rest l (c2 + 1) <;> simp [Except.map, List.append_assoc]
    · rw [Clause.keys]
      simp only [keysOf, List.map_append, List.map_cons, List.map_nil] at hk ⊢
      rw [hk]
      rfl
  | query h ln cn =>
    have estr : Clause.render (.query h ln cn) ++ rest = h.render ++ ('?' :: rest) := by
      rw [Clause.render]
      simp [List.append_assoc]
    rw [estr]
    obtain ⟨toks, c2, h1, hk⟩ :=
      lexAtom h (by simpa [wfClauseB] using hwf) ('?' :: rest) (fun _ => by rfl) l c
    rw [h1]
    rw [tokenizeFrom_emit (lexStep_question rest l c2)]
    refine ⟨toks ++ [⟨.question, ['?'], l, c2⟩], c2 + 1, ?_, ?_⟩
    · rw [except_map_map]
      cases tokenizeFrom rest l (c2 + 1) <;> simp [Except.map, List.append_assoc]
    · rw [Clause.keys]
      simp only [keysOf, List.map_append, List.map_cons, List.map_nil] at hk ⊢
      rw [hk]
      rfl
  | rule h b ln cn =>
    rw [wfClauseB] at hwf
    simp only [Bool.and_eq_true, List.all_eq_true, Bool.not_eq_true'] at hwf
    obtain ⟨⟨hwh, hne⟩, hwb⟩ := hwf
    obtain ⟨p, ps, rfl⟩ : ∃ p ps, b = p :: ps := by
      cases b with
      | nil => simp at hne
      | cons p ps => exact ⟨p, ps, rfl⟩
    have estr : Clause.render (.rule h (p :: ps) ln cn) ++ rest =
        h.render ++ (' ' :: ':' :: '-' :: ' ' ::
          (p.render ++ (joinTail ", ".data (ps.map Premise.render) ++ ('.' :: rest)))) := by
      rw [Clause.render]
      simp only [List.map_cons]
      rw [joinSep_cons_eq]
      simp [List.append_assoc]
    rw [estr]
    obtain ⟨atoks, c2, h1, hka⟩ :=
      lexAtom h hwh
        (' ' :: ':' :: '-' :: ' ' ::
          (p.render ++ (joinTail ", ".data (ps.map Premise.render) ++ ('.' :: rest))))
        (fun _ => by rfl) l c
    rw [h1]
    rw [tokenizeFrom_skip (lexStep_space _ l c2)]
    rw [tokenizeFrom_emit (lexStep_colonDash _ l (c2 + 1))]
    rw [tokenizeFrom_skip (lexStep_space _ l (c2 + 3))]
    have hbp : identCont
        (joinTail ", ".data (ps.map Premise.render) ++ ('.' :: rest)) = false :=
      identCont_joinTail_prems ps (by rfl)
    obtain ⟨ptoks, c3, h2, hkp⟩ :=
      lexPremise p (hwb p (List.mem_cons_self p ps)) _ hbp l (c2 + 4)
    rw [h2]
    obtain ⟨tks, c4, h3, hkt⟩ :=
      lexPremisesTail ps (fun x hx => hwb x (List.mem_cons_of_mem p hx)) ('.' :: rest)
        (by rfl) l c3
    rw [h3]
    rw [tokenizeFrom_emit (lexStep_dot rest l c4)]
    refine ⟨atoks ++ (⟨.colonDash, [':', '-'], l, c2 + 1⟩ ::
      (ptoks ++ (tks ++ [⟨.dot, ['.'], l, c4⟩]))), c4 + 1, ?_, ?_⟩
    · rw [except_map_map, except_map_map, except_map_map, except_map_map]
      cases tokenizeFrom rest l (c4 + 1) <;> simp [Except.map, List.append_assoc]
    · rw [Clause.keys, bodyKeys]
      simp only [keysOf, List.map_append, List.map_cons, List.map_nil] at hka hkp hkt ⊢
      rw [hka, hkp, hkt]
      simp [Token.key, List.append_assoc]

/-- Lexing the newline-separated tail of the clause list, to end of input. -/
theorem lexClausesTail (cls : List Clause) (hwf : ∀ x ∈ cls, wfClauseB x = true)
    (l c : Nat) :
    ∃ toks l2 c2, tokenizeFrom (joinTail ['\n'] (cls.map Clause.render)) l c =
      (tokenizeFrom [] l2 c2).map (fun ts => toks ++ ts) ∧
      keysOf toks = (cls.map Clause.keys).join := by
  induction cls generalizing l c with
  | nil =>
    refine ⟨[], l, c, ?_, rfl⟩
    rw [show joinTail ['\n'] ([].map Clause.render) = ([] : List Char) from rfl]
    rw [map_nil_append]
  | cons x xs ih =>
    have estr : joinTail ['\n'] ((x :: xs).map Clause.render) =
        '\n' :: (x.render ++ joinTail ['\n'] (xs.map Clause.render)) := by
      simp [joinTail, List.append_assoc]
    rw [estr]
    rw [tokenizeFrom_skip (lexStep_newline _ l c)]
    obtain ⟨tk, c3, ht, hkt⟩ :=
      lexClause x (hwf x (List.mem_cons_self x xs)) _ (l + 1) 1
    rw [ht]
    obtain ⟨tks, l4, c4, hts, hkts⟩ := ih (fun y hy => hwf y (List.mem_cons_of_mem x hy))
      (l + 1) c3
    rw [hts]
    refine ⟨tk ++ tks, l4, c4, ?_, ?_⟩
    · rw [except_map_map]
      cases tokenizeFrom [] l4 c4 <;> simp [Except.map, List.append_assoc]
    · simp only [keysOf, List.map_append, List.map_cons, List.join] at hkt hkts ⊢
      rw [hkt, hkts, List.flatten_cons]

/-- Tokenizing the canonical rendering of a well-formed program: a token
list whose keys are exactly the program's keys followed by EOF. -/
theorem tokenize_render (P : Program) (hwf : wfProgramB P = true) :
    ∃ toks, tokenize P.render = .ok toks ∧
      keysOf toks = P.keys ++ [(.eof, [])] := by
  obtain ⟨cls⟩ := P
  rw [wfProgramB] at hwf
  simp only [List.all_eq_true] at hwf
  cases cls with
  | nil => exact ⟨[⟨.eof, [], 1, 1⟩], rfl, rfl⟩
  | cons x xs =>
    rw [tokenize_eq_from]
    rw [show Program.render ⟨x :: xs⟩ =
      x.render ++ joinTail ['\n'] (xs.map Clause.render) from by
        simp only [Program.render, List.map_cons]
        exact joinSep_cons_eq _ _ _]
    obtain ⟨tk, c2, ht, hkt⟩ := lexClause x (hwf x (List.mem_cons_self x xs)) _ 1 1
    rw [ht]
    obtain ⟨tks, l3, c3, hts, hkts⟩ :=
      lexClausesTail xs (fun y hy => hwf y (List.mem_cons_of_mem x hy)) 1 c2
    rw [hts]
    rw [tokenizeFrom_nil]
    refine ⟨tk ++ (tks ++ [⟨.eof, [], l3, c3⟩]), ?_, ?_⟩
    · rfl
    · simp only [Program.keys, keysOf, List.map_append, List.map_cons, List.join] at hkt hkts ⊢
      rw [hkt, hkts]
      simp [Token.key, List.append_assoc, List.flatten_cons]

/-! ## Parsing a token list with known keys -/

theorem keysOf_cons {ts : List Token} {tt : TokType} {v : List Char}
    {K : List (TokType × List Char)} (h : keysOf ts = (tt, v) :: K) :
    ∃ tok ts2, ts = tok :: ts2 ∧ tok.type = tt ∧ tok.value = v ∧ keysOf ts2 = K := by
  cases ts with
  | nil => simp [keysOf] at h
  | cons tok ts2 =>
    simp only [keysOf, List.map_cons, List.cons.injEq, Token.key, Prod.mk.injEq] at h
    exact ⟨tok, ts2, rfl, h.1.1, h.1.2, h.2⟩

theorem matchTok_none_of_keys {tt : TokType} {ts : List Token}
    {K : List (TokType × List Char)} (h : keysOf ts = K) (hK : KeyHeadNe tt K) :
    matchTok tt ts = none := by
  cases ts with
  | nil => rfl
  | cons tok ts2 =>
    subst h
    simp only [keysOf, List.map_cons, KeyHeadNe, Token.key, ne_eq] at hK
    rw [matchTok, if_neg hK]

theorem parseTerm_keys (t : Term) {ts : List Token} {K : List (TokType × List Char)}
    (h : keysOf ts = t.keys ++ K) :
    ∃ t' ts', parse_term ts = .ok (t', ts') ∧ t'.strip = t.strip ∧ keysOf ts' = K := by
  cases t with
  | const n ln cn =>
    obtain ⟨tok, ts2, rfl, hty, hv, hrest⟩ := keysOf_cons (by simpa [Term.keys] using h)
    refine ⟨.const n tok.line tok.col, ts2, ?_, rfl, hrest⟩
    rw [parse_term, if_pos hty, hv]
  | var n ln cn =>
    obtain ⟨tok, ts2, rfl, hty, hv, hrest⟩ := keysOf_cons (by simpa [Term.keys] using h)
    refine ⟨.var n tok.line tok.col, ts2, ?_, rfl, hrest⟩
    rw [parse_term, if_neg (by rw [hty]; decide), if_pos hty, hv]
  | wild ln cn =>
    obtain ⟨tok, ts2, rfl, hty, hv, hrest⟩ := keysOf_cons (by simpa [Term.keys] using h)
    refine ⟨.wild tok.line tok.col, ts2, ?_, rfl, hrest⟩
    rw [parse_term, if_neg (by rw [hty]; decide), if_neg (by rw [hty]; decide),
      if_pos hty]

theorem parseArgsTail_keys (args : List Term) {ts : List Token}
    {K : List (TokType × List Char)} {fuel : Nat} (hfuel : ts.length < fuel)
    (h : keysOf ts = termsTailKeys args ++ K) (hK : KeyHeadNe .comma K) :
    ∃ args' ts', parse_more_terms fuel ts = .ok (args', ts') ∧
      args'.map Term.strip = args.map Term.strip ∧ keysOf ts' = K := by
  induction args generalizing ts fuel with
  | nil =>
    rw [termsTailKeys, List.nil_append] at h
    cases fuel with
    | zero => omega
    | succ f =>
      rw [parse_more_terms, matchTok_none_of_keys h hK]
      exact ⟨[], ts, rfl, rfl, h⟩
  | cons t args ih =>
    rw [termsTailKeys] at h
    simp only [List.cons_append, List.append_assoc] at h
    obtain ⟨ctok, ts1, rfl, hcty, hcv, h1⟩ := keysOf_cons h
    obtain ⟨t', ts2, hpt, hst, h2⟩ := parseTerm_keys t h1
    obtain ⟨tok2, rfl⟩ := parse_term_ok hpt
    cases fuel with
    | zero => omega
    | succ f =>
      have hmc : matchTok .comma (ctok :: tok2 :: ts2) = some (ctok, tok2 :: ts2) := by
        rw [matchTok, if_pos hcty]
      simp only [List.length_cons] at hfuel
      obtain ⟨args', ts3, hrec, hsts, h3⟩ := @ih ts2 f (by omega) h2
      refine ⟨t' :: args', ts3, ?_, ?_, h3⟩
      · simp only [parse_more_terms, hmc, hpt, hrec]
      · simp only [List.map_cons, hst, hsts]

theorem parseAtom_keys (a : Atom) {ts : List Token} {K : List (TokType × List Char)}
    (h : keysOf ts = a.keys ++ K) (hK : a.args = [] → KeyHeadNe .lparen K) :
    ∃ a' ts', parse_atom ts = .ok (a', ts') ∧ a'.strip = a.strip ∧ keysOf ts' = K := by
  obtain ⟨pred, args, ln, cn⟩ := a
  cases args with
  | nil =>
    rw [show Atom.keys ⟨pred, [], ln, cn⟩ = [(.identLower, pred)] from rfl] at h
    obtain ⟨tok, ts1, rfl, hty, hv, h1⟩ := keysOf_cons (by simpa using h)
    have hE : expectTok .identLower (tok :: ts1) = .ok (tok, ts1) := by
      rw [expectTok, if_pos hty]
    have hm : matchTok .lparen ts1 = none := matchTok_none_of_keys h1 (hK rfl)
    refine ⟨⟨tok.value, [], tok.line, tok.col⟩, ts1, ?_, ?_, h1⟩
    · simp only [parse_atom, hE, hm]
    · simp [Atom.strip, hv]
  | cons t targs =>
    rw [show Atom.keys ⟨pred, t :: targs, ln, cn⟩ =
      (.identLower, pred) :: (.lparen, ['(']) ::
        (t.keys ++ (termsTailKeys targs ++ [(.rparen, [')'])])) from by
        rw [Atom.keys]
        simp [List.append_assoc]] at h
    simp only [List.cons_append, List.append_assoc] at h
    obtain ⟨tok, ts1, rfl, hty, hv, h1⟩ := keysOf_cons h
    obtain ⟨ltok, ts2, rfl, hlty, hlv, h2⟩ := keysOf_cons h1
    simp only [List.nil_append] at h2
    obtain ⟨t', ts3, hpt, hst, h3⟩ := parseTerm_keys t h2
    obtain ⟨tok3, rfl⟩ := parse_term_ok hpt
    obtain ⟨args', ts4, hmt, hsts, h4⟩ :=
      parseArgsTail_keys targs (Nat.lt_succ_self _) h3 (by simp [KeyHeadNe])
    obtain ⟨rtok, ts5, rfl, hrty, hrv, h5⟩ := keysOf_cons (by simpa using h4)
    have hE : expectTok .identLower (tok :: ltok :: tok3 :: ts3) = .ok (tok, ltok :: tok3 :: ts3) := by
      rw [expectTok, if_pos hty]
    have hm : matchTok .lparen (ltok :: tok3 :: ts3) = some (ltok, tok3 :: ts3) := by
      rw [matchTok, if_pos hlty]
    have hR : expectTok .rparen (rtok :: ts5) = .ok (rtok, ts5) := by
      rw [expectTok, if_pos hrty]
    refine ⟨⟨tok.value, t' :: args', tok.line, tok.col⟩, ts5, ?_, ?_, h5⟩
    · simp only [parse_atom, hE, hm, hpt, hmt, hR]
    · simp only [Atom.strip, List.map_cons, hv, hst]
      rw [show args'.map Term.strip = targs.map Term.strip from hsts]

theorem peekType_ne_of_keys {ts : List Token} {K : List (TokType × List Char)}
    {tt : TokType} (h : keysOf ts = K) (hK : KeyHeadNe tt K) :
    peekType ts ≠ some tt := by
  cases ts with
  | nil => simp [peekType]
  | cons tok ts2 =>
    subst h
    simp only [keysOf, List.map_cons, KeyHeadNe, Token.key, ne_eq] at hK
    simp [peekType, hK]

/-- The first key of a rendered atom is its predicate as IDENT_LOWER. -/
theorem atom_keys_head (a : Atom) :
    ∃ rest, a.keys = (.identLower, a.predicate) :: rest := by
  obtain ⟨pred, args, ln, cn⟩ := a
  cases args with
  | nil => exact ⟨[], rfl⟩
  | cons t ts => exact ⟨_, rfl⟩

theorem parsePremise_keys (p : Premise) {ts : List Token}
    {K : List (TokType × List Char)} (h : keysOf ts = p.keys ++ K)
    (hK1 : KeyHeadNe .lparen K) (hK2 : KeyHeadNe .equals K)
    (hK3 : KeyHeadNe .notEquals K) :
    ∃ p' ts', parse_premise ts = .ok (p', ts') ∧ p'.strip = p.strip ∧ keysOf ts' = K := by
  cases p with
  | atom a =>
    obtain ⟨krest, hkeq⟩ := atom_keys_head a
    have h2 : keysOf ts = (.identLower, a.predicate) :: (krest ++ K) := by
      rw [show Premise.keys (.atom a) = a.keys from rfl, hkeq] at h
      simpa using h
    obtain ⟨tok, ts2, rfl, hty, hv, h1⟩ := keysOf_cons h2
    obtain ⟨a', ts', hA, hst, hk⟩ := parseAtom_keys a h (fun _ => hK1)
    have hne1 : peekType ts' ≠ some TokType.equals := peekType_ne_of_keys hk hK2
    have hne2 : peekType ts' ≠ some TokType.notEquals := peekType_ne_of_keys hk hK3
    refine ⟨.atom a', ts', ?_, ?_, hk⟩
    · rw [parse_premise, if_neg (by rw [hty]; decide), if_pos hty]
      simp only [hA]
      rw [if_neg hne1, if_neg hne2]
    · simp only [Premise.strip, hst]
  | neg a ln cn =>
    have h2 : keysOf ts = (.notKw, "not".data) :: (a.keys ++ K) := by
      rw [show Premise.keys (.neg a ln cn) = (.notKw, "not".data) :: a.keys from rfl] at h
      simpa using h
    obtain ⟨tok, ts2, rfl, hty, hv, h1⟩ := keysOf_cons h2
    obtain ⟨a', ts', hA, hst, hk⟩ := parseAtom_keys a h1 (fun _ => hK1)
    refine ⟨.neg a' a'.line a'.col, ts', ?_, ?_, hk⟩
    · rw [parse_premise, if_pos hty]
      simp only [hA]
    · simp only [Premise.strip, hst]
  | eq lt rt ln cn =>
    cases lt with
    | const n lnn cnn =>
      have h2 : keysOf ts =
          (.identLower, n) :: ((.equals, ['=']) :: (rt.keys ++ K)) := by
        rw [show Premise.keys (.eq (.const n lnn cnn) rt ln cn) =
          (.identLower, n) :: (.equals, ['=']) :: rt.keys from rfl] at h
        simpa [List.append_assoc] using h
      obtain ⟨tok, ts1, rfl, hty, hv, h1⟩ := keysOf_cons h2
      obtain ⟨etok, ts2, rfl, hety, hev, h3⟩ := keysOf_cons h1
      obtain ⟨r', ts3, hr, hstr, hk⟩ := parseTerm_keys rt h3
      have hE : expectTok .identLower (tok :: etok :: ts2) = .ok (tok, etok :: ts2) := by
        rw [expectTok, if_pos hty]
      have hm : matchTok .lparen (etok :: ts2) = none := by
        rw [matchTok, if_neg (by rw [hety]; decide)]
      have hA : parse_atom (tok :: etok :: ts2) =
          .ok (⟨tok.value, [], tok.line, tok.col⟩, etok :: ts2) := by
        simp only [parse_atom, hE, hm]
      have hpeek : peekType (etok :: ts2) = some TokType.equals := by
        simp [peekType, hety]
      have hEq : expectTok .equals (etok :: ts2) = .ok (etok, ts2) := by
        rw [expectTok, if_pos hety]
      refine ⟨.eq (.const tok.value tok.line tok.col) r' tok.line tok.col, ts3, ?_, ?_, hk⟩
      · rw [parse_premise, if_neg (by rw [hty]; decide), if_pos hty]
        simp only [hA]
        rw [if_pos hpeek, if_neg (by simp)]
        simp only [hEq, hr]
      · simp only [Premise.strip]
        rw [hv, hstr]
        simp only [Term.strip]
    | var n lnn cnn =>
      have h2 : keysOf ts = (.identUpper, n) :: ((.equals, ['=']) :: (rt.keys ++ K)) := by
        rw [show Premise.keys (.eq (.var n lnn cnn) rt ln cn) =
          (.identUpper, n) :: (.equals, ['=']) :: rt.keys from rfl] at h
        simpa [List.append_assoc] using h
      obtain ⟨tok, ts1, rfl, hty, hv, h1⟩ := keysOf_cons h2
      obtain ⟨etok, ts2, rfl, hety, hev, h3⟩ := keysOf_cons h1
      obtain ⟨r', ts3, hr, hstr, hk⟩ := parseTerm_keys rt h3
      have hpt : parse_term (tok :: etok :: ts2) =
          .ok (.var tok.value tok.line tok.col, etok :: ts2) := by
        rw [parse_term, if_neg (by rw [hty]; decide), if_pos hty]
      have hme : matchTok .equals (etok :: ts2) = some (etok, ts2) := by
        rw [matchTok, if_pos hety]
      refine ⟨.eq (.var tok.value tok.line tok.col) r' tok.line tok.col, ts3, ?_, ?_, hk⟩
      · rw [parse_premise, if_neg (by rw [hty]; decide), if_neg (by rw [hty]; decide)]
        simp only [hpt, hme, hr]
      · simp only [Premise.strip]
        rw [hv, hstr]
        simp only [Term.strip]
    | wild lnn cnn =>
      have h2 : keysOf ts = (.wildcard, ['_']) :: ((.equals, ['=']) :: (rt.keys ++ K)) := by
        rw [show Premise.keys (.eq (.wild lnn cnn) rt ln cn) =
          (.wildcard, ['_']) :: (.equals, ['=']) :: rt.keys from rfl] at h
        simpa [List.append_assoc] using h
      obtain ⟨tok, ts1, rfl, hty, hv, h1⟩ := keysOf_cons h2
      obtain ⟨etok, ts2, rfl, hety, hev, h3⟩ := keysOf_cons h1
      obtain ⟨r', ts3, hr, hstr, hk⟩ := parseTerm_keys rt h3
      have hpt : parse_term (tok :: etok :: ts2) =
          .ok (.wild tok.line tok.col, etok :: ts2) := by
        rw [parse_term, if_neg (by rw [hty]; decide), if_neg (by rw [hty]; decide),
          if_pos hty]
      have hme : matchTok .equals (etok :: ts2) = some (etok, ts2) := by
        rw [matchTok, if_pos hety]
      refine ⟨.eq (.wild tok.line tok.col) r' tok.line tok.col, ts3, ?_, ?_, hk⟩
      · rw [parse_premise, if_neg (by rw [hty]; decide), if_neg (by rw [hty]; decide)]
        simp only [hpt, hme, hr]
      · simp only [Premise.strip]
        rw [hstr]
        simp only [Term.strip]
  | ne lt rt ln cn =>
    cases lt with
    | const n lnn cnn =>
      have h2 : keysOf ts =
          (.identLower, n) :: ((.notEquals, ['!', '=']) :: (rt.keys ++ K)) := by
        rw [show Premise.keys (.ne (.const n lnn cnn) rt ln cn) =
          (.identLower, n) :: (.notEquals, ['!', '=']) :: rt.keys from rfl] at h
        simpa [List.append_assoc] using h
      obtain ⟨tok, ts1, rfl, hty, hv, h1⟩ := keysOf_cons h2
      obtain ⟨etok, ts2, rfl, hety, hev, h3⟩ := keysOf_cons h1
      obtain ⟨r', ts3, hr, hstr, hk⟩ := parseTerm_keys rt h3
      have hE : expectTok .identLower (tok :: etok :: ts2) = .ok (tok, etok :: ts2) := by
        rw [expectTok, if_pos hty]
      have hm : matchTok .lparen (etok :: ts2) = none := by
        rw [matchTok, if_neg (by rw [hety]; decide)]
      have hA : parse_atom (tok :: etok :: ts2) =
          .ok (⟨tok.value, [], tok.line, tok.col⟩, etok :: ts2) := by
        simp only [parse_atom, hE, hm]
      have hpeek1 : peekType (etok :: ts2) ≠ some TokType.equals := by
        simp [peekType, hety]
      have hpeek2 : peekType (etok :: ts2) = some TokType.notEquals := by
        simp [peekType, hety]
      have hEq : expectTok .notEquals (etok :: ts2) = .ok (etok, ts2) := by
        rw [expectTok, if_pos hety]
      refine ⟨.ne (.const tok.value tok.line tok.col) r' tok.line tok.col, ts3, ?_, ?_, hk⟩
      · rw [parse_premise, if_neg (by rw [hty]; decide), if_pos hty]
        simp only [hA]
        rw [if_neg hpeek1, if_pos hpeek2, if_neg (by simp)]
        simp only [hEq, hr]
      · simp only [Premise.strip]
        rw [hv, hstr]
        simp only [Term.strip]
    | var n lnn cnn =>
      have h2 : keysOf ts =
          (.identUpper, n) :: ((.notEquals, ['!', '=']) :: (rt.keys ++ K)) := by
        rw [show Premise.keys (.ne (.var n lnn cnn) rt ln cn) =
          (.identUpper, n) :: (.notEquals, ['!', '=']) :: rt.keys from rfl] at h
        simpa [List.append_assoc] using h
      obtain ⟨tok, ts1, rfl, hty, hv, h1⟩ := keysOf_cons h2
      obtain ⟨etok, ts2, rfl, hety, hev, h3⟩ := keysOf_cons h1
      obtain ⟨r', ts3, hr, hstr, hk⟩ := parseTerm_keys rt h3
      have hpt : parse_term (tok :: etok :: ts2) =
          .ok (.var tok.value tok.line tok.col, etok :: ts2) := by
        rw [parse_term, if_neg (by rw [hty]; decide), if_pos hty]
      have hme : matchTok .equals (etok :: ts2) = none := by
        rw [matchTok, if_neg (by rw [hety]; decide)]
      have hmn : matchTok .notEquals (etok :: ts2) = some (etok, ts2) := by
        rw [matchTok, if_pos hety]
      refine ⟨.ne (.var tok.value tok.line tok.col) r' tok.line tok.col, ts3, ?_, ?_, hk⟩
      · rw [parse_premise, if_neg (by rw [hty]; decide), if_neg (by rw [hty]; decide)]
        simp only [hpt, hme, hmn, hr]
      · simp only [Premise.strip]
        rw [hv, hstr]
        simp only [Term.strip]
    | wild lnn cnn =>
      have h2 : keysOf ts =
          (.wildcard, ['_']) :: ((.notEquals, ['!', '=']) :: (rt.keys ++ K)) := by
        rw [show Premise.keys (.ne (.wild lnn cnn) rt ln cn) =
          (.wildcard, ['_']) :: (.notEquals, ['!', '=']) :: rt.keys from rfl] at h
        simpa [List.append_assoc] using h
      obtain ⟨tok, ts1, rfl, hty, hv, h1⟩ := keysOf_cons h2
      obtain ⟨etok, ts2, rfl, hety, hev, h3⟩ := keysOf_cons h1
      obtain ⟨r', ts3, hr, hstr, hk⟩ := parseTerm_keys rt h3
      have hpt : parse_term (tok :: etok :: ts2) =
          .ok (.wild tok.line tok.col, etok :: ts2) := by
        rw [parse_term, if_neg (by rw [hty]; decide), if_neg (by rw [hty]; decide),
          if_pos hty]
      have hme : matchTok .equals (etok :: ts2) = none := by
        rw [matchTok, if_neg (by rw [hety]; decide)]
      have hmn : matchTok .notEquals (etok :: ts2) = some (etok, ts2) := by
        rw [matchTok, if_pos hety]
      refine ⟨.ne (.wild tok.line tok.col) r' tok.line tok.col, ts3, ?_, ?_, hk⟩
      · rw [parse_premise, if_neg (by rw [hty]; decide), if_neg (by rw [hty]; decide)]
        simp only [hpt, hme, hmn, hr]
      · simp only [Premise.strip]
        rw [hstr]
        simp only [Term.strip]

theorem keyHeadNe_cons {tt tt2 : TokType} {v : List Char}
    {K : List (TokType × List Char)} (hne : tt2 ≠ tt) :
    KeyHeadNe tt ((tt2, v) :: K) := hne

theorem keyHeadNe_premTail {tt : TokType} (ps : List Premise)
    {K : List (TokType × List Char)} (hK : KeyHeadNe tt K)
    (htt : tt ≠ TokType.comma) : KeyHeadNe tt (premisesTailKeys ps ++ K) := by
  cases ps with
  | nil => exact hK
  | cons p ps2 =>
    intro hh
    exact htt hh.symm

theorem parseBodyTail_keys (ps : List Premise) {ts : List Token}
    {K : List (TokType × List Char)} {fuel : Nat} (hfuel : ts.length < fuel)
    (h : keysOf ts = premisesTailKeys ps ++ K)
    (hC : KeyHeadNe .comma K) (hK1 : KeyHeadNe .lparen K)
    (hK2 : KeyHeadNe .equals K) (hK3 : KeyHeadNe .notEquals K) :
    ∃ ps' ts', parse_more_premises fuel ts = .ok (ps', ts') ∧
      ps'.map Premise.strip = ps.map Premise.strip ∧ keysOf ts' = K := by
  induction ps generalizing ts fuel with
  | nil =>
    rw [premisesTailKeys, List.nil_append] at h
    cases fuel with
    | zero => omega
    | succ f =>
      rw [parse_more_premises, matchTok_none_of_keys h hC]
      exact ⟨[], ts, rfl, rfl, h⟩
  | cons p rest ih =>
    have h2 : keysOf ts =
        (.comma, [',']) :: (p.keys ++ (premisesTailKeys rest ++ K)) := by
      rw [premisesTailKeys] at h
      simpa [List.append_assoc] using h
    obtain ⟨ctok, ts1, rfl, hcty, hcv, h1⟩ := keysOf_cons h2
    obtain ⟨p', ts2, hP, hps, hk1⟩ := parsePremise_keys p h1
      (keyHeadNe_premTail rest hK1 (by decide))
      (keyHeadNe_premTail rest hK2 (by decide))
      (keyHeadNe_premTail rest hK3 (by decide))
    cases fuel with
    | zero => omega
    | succ f =>
      have hlt : ts2.length < ts1.length := parse_premise_ok hP
      have hfl : ts1.length + 1 < f + 1 := by simpa using hfuel
      obtain ⟨ps', ts3, hMore, hmap, hk⟩ := @ih ts2 f (by omega) hk1
      have hmc : matchTok .comma (ctok :: ts1) = some (ctok, ts1) := by
        rw [matchTok, if_pos hcty]
      refine ⟨p' :: ps', ts3, ?_, ?_, hk⟩
      · rw [parse_more_premises]
        simp only [hmc, hP, hMore]
      · simp only [List.map_cons, hps, hmap]

/-- The first key of a rendered clause is its head predicate as IDENT_LOWER. -/
theorem clause_keys_head (c : Clause) :
    ∃ v rest, c.keys = (TokType.identLower, v) :: rest := by
  cases c with
  | fact a ln cn =>
    obtain ⟨r, hr⟩ := atom_keys_head a
    refine ⟨a.predicate, r ++ [(.dot, ['.'])], ?_⟩
    rw [show Clause.keys (.fact a ln cn) = a.keys ++ [(.dot, ['.'])] from rfl, hr]
    rfl
  | rule a b ln cn =>
    obtain ⟨r, hr⟩ := atom_keys_head a
    refine ⟨a.predicate,
      r ++ (.colonDash, [':', '-']) :: (bodyKeys b ++ [(.dot, ['.'])]), ?_⟩
    rw [show Clause.keys (.rule a b ln cn) = a.keys ++
      (.colonDash, [':', '-']) :: (bodyKeys b ++ [(.dot, ['.'])]) from rfl, hr]
    rfl
  | query a ln cn =>
    obtain ⟨r, hr⟩ := atom_keys_head a
    refine ⟨a.predicate, r ++ [(.question, ['?'])], ?_⟩
    rw [show Clause.keys (.query a ln cn) = a.keys ++ [(.question, ['?'])] from rfl, hr]
    rfl

theorem parseClause_keys (c : Clause) {ts : List Token}
    {K : List (TokType × List Char)} (hwf : wfClauseB c = true)
    (h : keysOf ts = c.keys ++ K) :
    ∃ c' ts', parse_clause ts = .ok (c', ts') ∧ c'.strip = c.strip ∧ keysOf ts' = K := by
  cases c with
  | fact a ln cn =>
    have h2 : keysOf ts = a.keys ++ ((.dot, ['.']) :: K) := by
      rw [show Clause.keys (.fact a ln cn) = a.keys ++ [(.dot, ['.'])] from rfl] at h
      simpa [List.append_assoc] using h
    obtain ⟨a', ts1, hA, hst, hk1⟩ := parseAtom_keys a h2
      (fun _ => keyHeadNe_cons (by decide))
    obtain ⟨dtok, ts2, rfl, hdty, hdv, hk⟩ := keysOf_cons hk1
    have hmd : matchTok .dot (dtok :: ts2) = some (dtok, ts2) := by
      rw [matchTok, if_pos hdty]
    refine ⟨.fact a' a'.line a'.col, ts2, ?_, ?_, hk⟩
    · rw [parse_clause]
      simp only [hA, hmd]
    · simp only [Clause.strip, hst]
  | query a ln cn =>
    have h2 : keysOf ts = a.keys ++ ((.question, ['?']) :: K) := by
      rw [show Clause.keys (.query a ln cn) = a.keys ++ [(.question, ['?'])] from rfl] at h
      simpa [List.append_assoc] using h
    obtain ⟨a', ts1, hA, hst, hk1⟩ := parseAtom_keys a h2
      (fun _ => keyHeadNe_cons (by decide))
    obtain ⟨qtok, ts2, rfl, hqty, hqv, hk⟩ := keysOf_cons hk1
    have hmd : matchTok .dot (qtok :: ts2) = none := by
      rw [matchTok, if_neg (by rw [hqty]; decide)]
    have hmq : matchTok .question (qtok :: ts2) = some (qtok, ts2) := by
      rw [matchTok, if_pos hqty]
    refine ⟨.query a' a'.line a'.col, ts2, ?_, ?_, hk⟩
    · rw [parse_clause]
      simp only [hA, hmd, hmq]
    · simp only [Clause.strip, hst]
  | rule a b ln cn =>
    cases b with
    | nil => simp [wfClauseB] at hwf
    | cons p ps =>
      have hwfa : wfAtomB a = true := by
        rw [wfClauseB] at hwf
        simp only [Bool.and_eq_true] at hwf
        exact hwf.1.1
      have h2 : keysOf ts = a.keys ++ ((.colonDash, [':', '-']) ::
          (p.keys ++ (premisesTailKeys ps ++ ((.dot, ['.']) :: K)))) := by
        rw [show Clause.keys (.rule a (p :: ps) ln cn) = a.keys ++
          (.colonDash, [':', '-']) :: (bodyKeys (p :: ps) ++ [(.dot, ['.'])]) from rfl] at h
        rw [show bodyKeys (p :: ps) = p.keys ++ premisesTailKeys ps from rfl] at h
        simpa [List.append_assoc] using h
      obtain ⟨a', ts1, hA, hst, hk1⟩ := parseAtom_keys a h2
        (fun _ => keyHeadNe_cons (by decide))
      obtain ⟨ctok, ts2, rfl, hcty, hcv, hk2⟩ := keysOf_cons hk1
      have hmd : matchTok .dot (ctok :: ts2) = none := by
        rw [matchTok, if_neg (by rw [hcty]; decide)]
      have hmq : matchTok .question (ctok :: ts2) = none := by
        rw [matchTok, if_neg (by rw [hcty]; decide)]
      have hE : expectTok .colonDash (ctok :: ts2) = .ok (ctok, ts2) := by
        rw [expectTok, if_pos hcty]
      obtain ⟨p', ts3, hP, hps, hk3⟩ := parsePremise_keys p hk2
        (keyHeadNe_premTail ps (keyHeadNe_cons (by decide)) (by decide))
        (keyHeadNe_premTail ps (keyHeadNe_cons (by decide)) (by decide))
        (keyHeadNe_premTail ps (keyHeadNe_cons (by decide)) (by decide))
      obtain ⟨ps', ts4, hMore, hmap, hk4⟩ := parseBodyTail_keys ps
        (Nat.lt_succ_self ts3.length) hk3
        (keyHeadNe_cons (by decide)) (keyHeadNe_cons (by decide))
        (keyHeadNe_cons (by decide)) (keyHeadNe_cons (by decide))
      obtain ⟨dtok, ts5, rfl, hdty, hdv, hk⟩ := keysOf_cons hk4
      have hEd : expectTok .dot (dtok :: ts5) = .ok (dtok, ts5) := by
        rw [expectTok, if_pos hdty]
      refine ⟨.rule a' (p' :: ps') a'.line a'.col, ts5, ?_, ?_, hk⟩
      · rw [parse_clause]
        simp only [hA, hmd, hmq, hE, hP, hMore, hEd]
      · simp only [Clause.strip, List.map_cons, hst, hps, hmap]

theorem parseProgramAux_keys (cls : List Clause) {ts : List Token} {fuel : Nat}
    (hfuel : ts.length < fuel)
    (h : keysOf ts = (cls.map Clause.keys).join ++ [(.eof, [])])
    (hwf : cls.all wfClauseB = true) :
    ∃ cls2 ts', parse_program_aux fuel ts = .ok (cls2, ts') ∧
      cls2.map Clause.strip = cls.map Clause.strip ∧ keysOf ts' = [(.eof, [])] := by
  induction cls generalizing ts fuel with
  | nil =>
    simp only [List.map_nil, List.join, List.nil_append] at h
    cases fuel with
    | zero => omega
    | succ f =>
      obtain ⟨etok, ts2, rfl, hety, hev, h1⟩ := keysOf_cons h
      rw [parse_program_aux, if_pos (by simp [peekType, hety])]
      exact ⟨[], etok :: ts2, rfl, rfl, h⟩
  | cons c rest ih =>
    obtain ⟨hc, hrest⟩ : wfClauseB c = true ∧ rest.all wfClauseB = true := by
      simpa using hwf
    obtain ⟨v, kr, hkeq⟩ := clause_keys_head c
    have hJ : ((c :: rest).map Clause.keys).join =
        c.keys ++ (rest.map Clause.keys).join := by simp
    have hC : keysOf ts = c.keys ++
        ((rest.map Clause.keys).join ++ [(.eof, [])]) := by
      rw [hJ] at h
      simpa [List.append_assoc] using h
    have h2 : keysOf ts = (TokType.identLower, v) ::
        (kr ++ ((rest.map Clause.keys).join ++ [(.eof, [])])) := by
      rw [hkeq] at hC
      simpa [List.append_assoc] using hC
    obtain ⟨tok, ts0, rfl, hty, hv, h1⟩ := keysOf_cons h2
    obtain ⟨c', ts1, hCl, hcs, hk1⟩ := parseClause_keys c hc hC
    cases fuel with
    | zero => omega
    | succ f =>
      have hne : peekType (tok :: ts0) ≠ some TokType.eof := by
        simp [peekType, hty]
      have hlt : ts1.length < ts0.length + 1 := by
        simpa using parse_clause_ok hCl
      have hfl : ts0.length + 1 < f + 1 := by simpa using hfuel
      obtain ⟨cls2, ts2, hAux, hmap, hk⟩ := @ih ts1 f (by omega) hk1 hrest
      refine ⟨c' :: cls2, ts2, ?_, ?_, hk⟩
      · rw [parse_program_aux, if_neg hne]
        simp only [hCl, hAux]
      · simp only [List.map_cons, hcs, hmap]

theorem parseProgram_keys (P : Program) (ts : List Token)
    (h : keysOf ts = P.keys ++ [(.eof, [])])
    (hwf : wfProgramB P = true) :
    ∃ Q, parse_program ts = .ok Q ∧ Q.strip = P.strip := by
  obtain ⟨cls2, ts1, hAux, hmap, hk⟩ := parseProgramAux_keys P.clauses
    (Nat.lt_succ_self ts.length) h hwf
  obtain ⟨etok, ts2, heq, hety, hev, hnil⟩ := keysOf_cons hk
  have hE : expectTok .eof ts1 = .ok (etok, ts2) := by
    rw [heq, expectTok, if_pos hety]
  refine ⟨⟨cls2⟩, ?_, ?_⟩
  · rw [parse_program]
    simp only [hAux, hE]
  · simp only [Program.strip, hmap]

/-- Rendering a well-formed program and running check_syntax on the result
succeeds, and yields the same program up to token positions. -/
theorem render_roundtrip (P : Program) (hwf : wfProgramB P = true) :
    ∃ Q, checkSyntaxL P.render = .ok Q ∧ Q.strip = P.strip := by
  obtain ⟨toks, htok, hkeys⟩ := tokenize_render P hwf
  obtain ⟨Q, hparse, hstrip⟩ := parseProgram_keys P toks hkeys hwf
  refine ⟨Q, ?_, hstrip⟩
  rw [checkSyntaxL]
  simp only [htok, hparse]

/-! ## Whitespace-and-comment-only sources -/

theorem dropLine_fst (cs : List Char) (a b : Nat) :
    (dropLine cs a).1 = (dropLine cs b).1 := by
  induction cs generalizing a b with
  | nil => rfl
  | cons c cs ih =>
    by_cases h : c = '\n'
    · simp [dropLine, h]
    · simp only [dropLine, if_neg h]
      exact ih (a + 1) (b + 1)

theorem wsOnlyAux_nil (fuel : Nat) : wsOnlyAux fuel [] = true := by
  cases fuel <;> rfl

theorem wsOnlyAux_fuel {f g : Nat} (cs : List Char) (hf : cs.length ≤ f)
    (hg : cs.length ≤ g) : wsOnlyAux f cs = wsOnlyAux g cs := by
  induction f generalizing g cs with
  | zero =>
    obtain rfl : cs = [] := List.length_eq_zero.mp (Nat.le_zero.mp hf)
    rw [wsOnlyAux_nil, wsOnlyAux_nil]
  | succ f ih =>
    cases cs with
    | nil => rw [wsOnlyAux_nil, wsOnlyAux_nil]
    | cons c cs2 =>
      cases g with
      | zero => simp at hg
      | succ g =>
        rw [wsOnlyAux, wsOnlyAux]
        have hlf : cs2.length ≤ f := by simpa using hf
        have hlg : cs2.length ≤ g := by simpa using hg
        have hdf : (dropLine cs2 0).1.length ≤ f :=
          le_trans (dropLine_length_le cs2 0) hlf
        have hdg : (dropLine cs2 0).1.length ≤ g :=
          le_trans (dropLine_length_le cs2 0) hlg
        by_cases hw : isWsChar c
        · rw [if_pos hw, if_pos hw, ih cs2 hlf hlg]
        · rw [if_neg hw, if_neg hw]
          by_cases hc : c = '%'
          · rw [if_pos hc, if_pos hc, ih (dropLine cs2 0).1 hdf hdg]
          · rw [if_neg hc, if_neg hc]

/-- On a whitespace/comment-only source the tokenize loop reaches the end
of input and emits only the EOF token. -/
theorem tokenizeAux_wsOnly {fuel : Nat} (cs : List Char) (l c : Nat)
    (hfuel : cs.length < fuel) (hws : wsOnly cs = true) :
    ∃ l2 c2, tokenizeAux fuel cs l c = .ok [⟨.eof, [], l2, c2⟩] := by
  induction fuel generalizing cs l c with
  | zero => omega
  | succ f ih =>
    cases cs with
    | nil => exact ⟨l, c, rfl⟩
    | cons ch cs2 =>
      rw [wsOnly] at hws
      simp only [List.length_cons] at hws
      rw [wsOnlyAux] at hws
      have hlen : cs2.length < f := by simpa using Nat.lt_of_succ_lt_succ hfuel
      by_cases hw : isWsChar ch
      · rw [if_pos hw] at hws
        have hws2 : wsOnly cs2 = true := hws
        rw [isWsChar] at hw
        simp only [Bool.or_eq_true, decide_eq_true_eq] at hw
        by_cases hn : ch = '\n'
        · rw [tokenizeAux, lexStep, if_neg (by rw [hn]; decide), if_pos hn]
          exact ih cs2 (l + 1) 1 hlen hws2
        · have h3 : ch = ' ' ∨ ch = '\t' ∨ ch = '\r' := by tauto
          rw [tokenizeAux, lexStep, if_pos h3]
          exact ih cs2 l (c + 1) hlen hws2
      · rw [if_neg hw] at hws
        by_cases hc : ch = '%'
        · rw [if_pos hc] at hws
          have hws2 : wsOnly (dropLine cs2 (c + 1)).1 = true := by
            rw [wsOnly, dropLine_fst cs2 (c + 1) 0]
            rw [wsOnlyAux_fuel (dropLine cs2 0).1 (le_refl _)
              (dropLine_length_le cs2 0)]
            exact hws
          have hw1 : ¬(ch = ' ' ∨ ch = '\t' ∨ ch = '\r') := by
            rw [hc]; decide
          have hw2 : ch ≠ '\n' := by rw [hc]; decide
          rw [tokenizeAux, lexStep, if_neg hw1, if_neg hw2, if_pos hc]
          exact ih (dropLine cs2 (c + 1)).1 l (dropLine cs2 (c + 1)).2
            (by
              have := dropLine_length_le cs2 (c + 1)
              omega) hws2
        · rw [if_neg hc] at hws
          exact Bool.noConfusion hws

/-- check_syntax accepts a whitespace/comment-only source with the empty
program. -/
theorem checkSyntaxL_wsOnly (cs : List Char) (hws : wsOnly cs = true) :
    checkSyntaxL cs = .ok ⟨[]⟩ := by
  obtain ⟨l2, c2, htok⟩ := tokenizeAux_wsOnly cs 1 1 (Nat.lt_succ_self _) hws
  rw [checkSyntaxL, show tokenize cs = tokenizeAux (cs.length + 1) cs 1 1 from rfl,
    htok]
  rfl

theorem wfTermB_names {t : Term} (h : wfTermB t = true) :
    ∀ n ∈ t.constNames, wfLowerB n = true := by
  cases t with
  | const m ln cn =>
    intro n hn
    obtain rfl : n = m := by simpa [Term.constNames] using hn
    simpa [wfTermB] using h
  | var m ln cn => intro n hn; simp [Term.constNames] at hn
  | wild ln cn => intro n hn; simp [Term.constNames] at hn

theorem wfAtomB_names {a : Atom} (h : wfAtomB a = true) :
    wfLowerB a.predicate = true ∧ ∀ n ∈ a.constNames, wfLowerB n = true := by
  rw [wfAtomB, Bool.and_eq_true] at h
  refine ⟨h.1, ?_⟩
  intro n hn
  rw [Atom.constNames] at hn
  simp only [List.mem_join, List.mem_map] at hn
  obtain ⟨l, ⟨t, ht, rfl⟩, hnl⟩ := hn
  have hwt : wfTermB t = true := by
    have := h.2
    simp only [List.all_eq_true] at this
    exact this t ht
  exact wfTermB_names hwt n hnl

theorem wfPremiseB_names {p : Premise} (h : wfPremiseB p = true) :
    (∀ a ∈ p.atoms, wfLowerB a.predicate = true) ∧
    (∀ n ∈ p.constNames, wfLowerB n = true) := by
  cases p with
  | atom a =>
    have hh := wfAtomB_names (by simpa [wfPremiseB] using h)
    constructor
    · intro x hx
      obtain rfl : x = a := by simpa [Premise.atoms] using hx
      exact hh.1
    · intro n hn
      exact hh.2 n (by simpa [Premise.constNames] using hn)
  | neg a ln cn =>
    have hh := wfAtomB_names (by simpa [wfPremiseB] using h)
    constructor
    · intro x hx
      obtain rfl : x = a := by simpa [Premise.atoms] using hx
      exact hh.1
    · intro n hn
      exact hh.2 n (by simpa [Premise.constNames] using hn)
  | eq l r ln cn =>
    rw [wfPremiseB, Bool.and_eq_true] at h
    constructor
    · intro x hx
      simp [Premise.atoms] at hx
    · intro n hn
      rw [Premise.constNames] at hn
      rcases List.mem_append.mp hn with hm | hm
      · exact wfTermB_names h.1 n hm
      · exact wfTermB_names h.2 n hm
  | ne l r ln cn =>
    rw [wfPremiseB, Bool.and_eq_true] at h
    constructor
    · intro x hx
      simp [Premise.atoms] at hx
    · intro n hn
      rw [Premise.constNames] at hn
      rcases List.mem_append.mp hn with hm | hm
      · exact wfTermB_names h.1 n hm
      · exact wfTermB_names h.2 n hm

theorem wfClauseB_names {c : Clause} (h : wfClauseB c = true) :
    (∀ a ∈ c.atoms, wfLowerB a.predicate = true) ∧
    (∀ n ∈ c.constNames, wfLowerB n = true) := by
  cases c with
  | fact a ln cn =>
    have hh := wfAtomB_names (by simpa [wfClauseB] using h)
    constructor
    · intro x hx
      obtain rfl : x = a := by simpa [Clause.atoms] using hx
      exact hh.1
    · intro n hn
      exact hh.2 n (by simpa [Clause.constNames] using hn)
  | query a ln cn =>
    have hh := wfAtomB_names (by simpa [wfClauseB] using h)
    constructor
    · intro x hx
      obtain rfl : x = a := by simpa [Clause.atoms] using hx
      exact hh.1
    · intro n hn
      exact hh.2 n (by simpa [Clause.constNames] using hn)
  | rule a b ln cn =>
    rw [wfClauseB] at h
    simp only [Bool.and_eq_true] at h
    have hh := wfAtomB_names h.1.1
    have hb : ∀ p ∈ b, wfPremiseB p = true := by
      have := h.2
      simpa only [List.all_eq_true] using this
    constructor
    · intro x hx
      rw [Clause.atoms] at hx
      rcases List.mem_cons.mp hx with rfl | hm
      · exact hh.1
      · simp only [List.mem_join, List.mem_map] at hm
        obtain ⟨l, ⟨p, hp, rfl⟩, hxl⟩ := hm
        exact (wfPremiseB_names (hb p hp)).1 x hxl
    · intro n hn
      rw [Clause.constNames] at hn
      rcases List.mem_append.mp hn with hm | hm
      · exact hh.2 n hm
      · simp only [List.mem_join, List.mem_map] at hm
        obtain ⟨l, ⟨p, hp, rfl⟩, hnl⟩ := hm
        exact (wfPremiseB_names (hb p hp)).2 n hnl

theorem wfProgramB_names {P : Program} (h : wfProgramB P = true) :
    (∀ a ∈ P.atoms, wfLowerB a.predicate = true) ∧
    (∀ n ∈ P.constNames, wfLowerB n = true) := by
  rw [wfProgramB] at h
  have hc : ∀ c ∈ P.clauses, wfClauseB c = true := by
    simpa only [List.all_eq_true] using h
  constructor
  · intro a ha
    rw [Program.atoms] at ha
    simp only [List.mem_join, List.mem_map] at ha
    obtain ⟨l, ⟨c, hcm, rfl⟩, hal⟩ := ha
    exact (wfClauseB_names (hc c hcm)).1 a hal
  · intro n hn
    rw [Program.constNames] at hn
    simp only [List.mem_join, List.mem_map] at hn
    obtain ⟨l, ⟨c, hcm, rfl⟩, hnl⟩ := hn
    exact (wfClauseB_names (hc c hcm)).2 n hnl

/-! ## The claims -/

/-- Claim C1: for every premise that begins with an IDENT_LOWER token, the
parser first parses a full atom and then inspects the next token: on '='
or '!=' with a zero-argument atom it returns an Equality (resp.
Inequality) premise whose left side is a Constant carrying the atom's
predicate name; on '=' or '!=' with a compound atom it raises a
SyntaxError; otherwise it returns the parsed atom as a positive premise. -/
theorem C1_premise_lower_disambiguation (tok : Token) (tsr : List Token)
    (hty : tok.type = TokType.identLower) (a : Atom) (ts1 : List Token)
    (hA : parse_atom (tok :: tsr) = .ok (a, ts1)) :
    ((peekType ts1 = some TokType.equals ∧ a.args ≠ []) →
      parse_premise (tok :: tsr) = .error ⟨compoundEqMsg, tok.line, tok.col⟩) ∧
    ((peekType ts1 = some TokType.notEquals ∧ a.args ≠ []) →
      parse_premise (tok :: tsr) = .error ⟨compoundNeMsg, tok.line, tok.col⟩) ∧
    (∀ etok ts2 r ts3, peekType ts1 = some TokType.equals → a.args = [] →
      expectTok TokType.equals ts1 = .ok (etok, ts2) →
      parse_term ts2 = .ok (r, ts3) →
      parse_premise (tok :: tsr) =
        .ok (.eq (.const a.predicate a.line a.col) r tok.line tok.col, ts3)) ∧
    (∀ etok ts2 r ts3, peekType ts1 = some TokType.notEquals → a.args = [] →
      expectTok TokType.notEquals ts1 = .ok (etok, ts2) →
      parse_term ts2 = .ok (r, ts3) →
      parse_premise (tok :: tsr) =
        .ok (.ne (.const a.predicate a.line a.col) r tok.line tok.col, ts3)) ∧
    ((peekType ts1 ≠ some TokType.equals ∧ peekType ts1 ≠ some TokType.notEquals) →
      parse_premise (tok :: tsr) = .ok (.atom a, ts1)) := by
  have hne : tok.type ≠ TokType.notKw := by rw [hty]; decide
  refine ⟨?_, ?_, ?_, ?_, ?_⟩
  · rintro ⟨hpk, hargs⟩
    rw [parse_premise, if_neg hne, if_pos hty]
    simp only [hA]
    rw [if_pos hpk, if_pos hargs]
  · rintro ⟨hpk, hargs⟩
    rw [parse_premise, if_neg hne, if_pos hty]
    simp only [hA]
    rw [if_neg (by rw [hpk]; simp), if_pos hpk, if_pos hargs]
  · intro etok ts2 r ts3 hpk hargs hE hT
    rw [parse_premise, if_neg hne, if_pos hty]
    simp only [hA]
    rw [if_pos hpk, if_neg (by simp [hargs])]
    simp only [hE, hT]
  · intro etok ts2 r ts3 hpk hargs hE hT
    rw [parse_premise, if_neg hne, if_pos hty]
    simp only [hA]
    rw [if_neg (by rw [hpk]; simp), if_pos hpk, if_neg (by simp [hargs])]
    simp only [hE, hT]
  · rintro ⟨h1, h2⟩
    rw [parse_premise, if_neg hne, if_pos hty]
    simp only [hA]
    rw [if_neg h1, if_neg h2]

/-- Witness for C1: the token stream of p=q is parsed as an Equality with
Constant left side p. -/
theorem C1_witness :
    parse_premise [⟨.identLower, ['p'], 1, 1⟩, ⟨.equals, ['='], 1, 2⟩,
        ⟨.identLower, ['q'], 1, 3⟩, ⟨.eof, [], 1, 4⟩] =
      .ok (.eq (.const ['p'] 1 1) (.const ['q'] 1 3) 1 1, [⟨.eof, [], 1, 4⟩]) := by
  have h := C1_premise_lower_disambiguation ⟨.identLower, ['p'], 1, 1⟩
    [⟨.equals, ['='], 1, 2⟩, ⟨.identLower, ['q'], 1, 3⟩, ⟨.eof, [], 1, 4⟩] rfl
    ⟨['p'], [], 1, 1⟩
    [⟨.equals, ['='], 1, 2⟩, ⟨.identLower, ['q'], 1, 3⟩, ⟨.eof, [], 1, 4⟩] rfl
  exact h.2.2.1 ⟨.equals, ['='], 1, 2⟩ [⟨.identLower, ['q'], 1, 3⟩, ⟨.eof, [], 1, 4⟩]
    (.const ['q'] 1 3) [⟨.eof, [], 1, 4⟩] rfl rfl rfl rfl

/-- Claim C2: whenever check_syntax succeeds with program P, rendering P to
its canonical textual form and running check_syntax on the rendering
succeeds and returns a program equal to P up to line/column positions. -/
theorem C2_render_reparse (s : String) (P : Program)
    (h : check_syntax s = .ok P) :
    ∃ Q, check_syntax (String.mk P.render) = .ok Q ∧ Q.strip = P.strip :=
  render_roundtrip P (checkSyntaxL_wf h)

/-- Witness for C2 at the source edge(a,b). -/
theorem C2_witness :
    ∃ Q, check_syntax (String.mk (Program.render ⟨[.fact ⟨"edge".data,
        [.const ['a'] 1 6, .const ['b'] 1 8], 1, 1⟩ 1 1]⟩)) = .ok Q ∧
      Q.strip = Program.strip ⟨[.fact ⟨"edge".data,
        [.const ['a'] 1 6, .const ['b'] 1 8], 1, 1⟩ 1 1]⟩ :=
  C2_render_reparse ("edge(a,b).") ⟨[.fact ⟨"edge".data,
    [.const ['a'] 1 6, .const ['b'] 1 8], 1, 1⟩ 1 1]⟩ rfl

/-- Claim C3, amended: in every program check_syntax accepts, each atom
predicate and each constant name has the lexer's IDENT_LOWER shape
(wfLowerB): it starts with a letter that is not uppercase or with an
underscore, continues with identifier characters, and is neither the
keyword not nor a lone underscore.  The original claim's stronger reading,
that these names start with a lowercase letter, is refuted by
C3_counterexample: underscore-initial identifiers also lex as IDENT_LOWER. -/
theorem C3_ident_shape (s : String) (P : Program)
    (h : check_syntax s = .ok P) :
    (∀ a ∈ P.atoms, wfLowerB a.predicate = true) ∧
    (∀ n ∈ P.constNames, wfLowerB n = true) :=
  wfProgramB_names (checkSyntaxL_wf h)

/-- Witness for C3 at the source edge(a,b). -/
theorem C3_witness : wfLowerB ("edge".data) = true ∧ wfLowerB ['a'] = true := by
  have h := C3_ident_shape ("edge(a,b).") ⟨[.fact ⟨"edge".data,
    [.const ['a'] 1 6, .const ['b'] 1 8], 1, 1⟩ 1 1]⟩ rfl
  constructor
  · exact h.1 ⟨"edge".data, [.const ['a'] 1 6, .const ['b'] 1 8], 1, 1⟩
      (by simp [Program.atoms, Clause.atoms])
  · exact h.2 ['a']
      (by simp [Program.constNames, Clause.constNames, Atom.constNames, Term.constNames])

/-- Counterexample to the original C3: check_syntax accepts p(_a). and _a.
although the constant name and the predicate _a start with an underscore,
which is not a lowercase letter. -/
theorem C3_counterexample :
    check_syntax ("p(_a).") =
      .ok ⟨[.fact ⟨['p'], [.const ['_', 'a'] 1 3], 1, 1⟩ 1 1]⟩ ∧
    check_syntax ("_a.") = .ok ⟨[.fact ⟨['_', 'a'], [], 1, 1⟩ 1 1]⟩ ∧
    ('_').isLower = false :=
  ⟨rfl, rfl, rfl⟩

/-- Claim C5: every rule in a program accepted by check_syntax has a
non-empty body, and both p(X) :- . and p(X) :- q(X),. are rejected with a
SyntaxError (at the '.' token, which is not a valid start of a term). -/
theorem C5_rule_bodies (s : String) (P : Program)
    (h : check_syntax s = .ok P) :
    (∀ hd b ln cn, Clause.rule hd b ln cn ∈ P.clauses → b ≠ []) ∧
    check_syntax ("p(X) :- .") =
      .error (.parse ⟨termErrMsg ⟨.dot, ['.'], 1, 9⟩, 1, 9⟩) ∧
    check_syntax ("p(X) :- q(X),.") =
      .error (.parse ⟨termErrMsg ⟨.dot, ['.'], 1, 14⟩, 1, 14⟩) := by
  refine ⟨?_, rfl, rfl⟩
  intro hd b ln cn hm hb
  have hwf : wfProgramB P = true := checkSyntaxL_wf h
  rw [wfProgramB] at hwf
  have hall : ∀ c ∈ P.clauses, wfClauseB c = true := by
    simpa only [List.all_eq_true] using hwf
  have hc := hall _ hm
  rw [hb] at hc
  simp [wfClauseB] at hc

/-- Witness for C5 at the source p(X) :- q(X). -/
theorem C5_witness :
    [Premise.atom ⟨['q'], [.var ['X'] 1 11], 1, 9⟩] ≠ [] ∧
    check_syntax ("p(X) :- .") =
      .error (.parse ⟨termErrMsg ⟨.dot, ['.'], 1, 9⟩, 1, 9⟩) ∧
    check_syntax ("p(X) :- q(X),.") =
      .error (.parse ⟨termErrMsg ⟨.dot, ['.'], 1, 14⟩, 1, 14⟩) := by
  have h := C5_rule_bodies ("p(X) :- q(X).") ⟨[.rule ⟨['p'], [.var ['X'] 1 3], 1, 1⟩
    [.atom ⟨['q'], [.var ['X'] 1 11], 1, 9⟩] 1 1]⟩ rfl
  exact ⟨h.1 ⟨['p'], [.var ['X'] 1 3], 1, 1⟩
    [.atom ⟨['q'], [.var ['X'] 1 11], 1, 9⟩] 1 1 (by simp), h.2.1, h.2.2⟩

/-- Claim C8: check_syntax accepts every source made only of whitespace and
% line comments (the empty source included) and returns the empty
program. -/
theorem C8_ws_only (s : String) (hws : wsOnly s.data = true) :
    check_syntax s = .ok ⟨[]⟩ :=
  checkSyntaxL_wsOnly s.data hws

/-- Witness for C8 on a source of blanks, a comment and a tab, and on the
empty source. -/
theorem C8_witness :
    wsOnly ("  % hi\n \t".data) = true ∧
    check_syntax ("  % hi\n \t") = .ok ⟨[]⟩ ∧ check_syntax ("") = .ok ⟨[]⟩ :=
  ⟨by decide, C8_ws_only ("  % hi\n \t") (by decide), C8_ws_only ("") (by decide)⟩

/-- Claim C10: check_syntax tokenizes the whole source before parsing, so a
lexer error anywhere in the source surfaces as a LexerError even when a
grammar violation occurs earlier in the text: whenever tokenize fails,
check_syntax reports that LexerError; Edge(a). @ gives the LexerError at
the '@' in column 10, while the prefix Edge(a). without the '@' gives a
SyntaxError at Edge. -/
theorem C10_lex_before_parse (cs : List Char) (e : LexError)
    (h : tokenize cs = .error e) :
    checkSyntaxL cs = .error (.lex e) ∧
    check_syntax ("Edge(a). @") = .error (.lex ⟨unexpectedChar '@', 1, 10⟩) ∧
    check_syntax ("Edge(a).") =
      .error (.parse ⟨expectedMsg .identLower ⟨.identUpper, "Edge".data, 1, 1⟩, 1, 1⟩) := by
  refine ⟨?_, rfl, rfl⟩
  rw [checkSyntaxL]
  simp only [h]

/-- Witness for C10 at the source Edge(a). followed by a stray at sign. -/
theorem C10_witness :
    checkSyntaxL ("Edge(a). @".data) = .error (.lex ⟨unexpectedChar '@', 1, 10⟩) ∧
    check_syntax ("Edge(a). @") = .error (.lex ⟨unexpectedChar '@', 1, 10⟩) ∧
    check_syntax ("Edge(a).") =
      .error (.parse ⟨expectedMsg .identLower ⟨.identUpper, "Edge".data, 1, 1⟩, 1, 1⟩) :=
  C10_lex_before_parse ("Edge(a). @".data) ⟨unexpectedChar '@', 1, 10⟩ rfl

/-- Claim C4: for every lexer-producible predicate name p and every list of
lexer-producible terms, the canonical source for the fact p(t1,...,tn).
(the bare p. when n = 0) is accepted by check_syntax and yields exactly one
clause, a Fact whose head has predicate p and the same arguments up to
positions (hence the same count n); in particular edge(a,b). yields one
Fact with predicate edge and args Constant a, Constant b. -/
theorem C4_fact_parsing (p : List Char) (args : List Term)
    (hp : wfLowerB p = true) (hargs : args.all wfTermB = true) :
    (∃ Q, check_syntax (String.mk (Program.render ⟨[.fact ⟨p, args, 0, 0⟩ 0 0]⟩)) =
        .ok Q ∧
      ∃ a ln cn, Q.clauses = [.fact a ln cn] ∧ a.predicate = p ∧
        a.args.length = args.length ∧
        a.args.map Term.strip = args.map Term.strip) ∧
    check_syntax ("edge(a,b).") =
      .ok ⟨[.fact ⟨"edge".data, [.const ['a'] 1 6, .const ['b'] 1 8], 1, 1⟩ 1 1]⟩ := by
  refine ⟨?_, rfl⟩
  have hwf : wfProgramB ⟨[.fact ⟨p, args, 0, 0⟩ 0 0]⟩ = true := by
    simp [wfProgramB, wfClauseB, wfAtomB, hp, hargs]
  obtain ⟨Q, hok, hstrip⟩ := render_roundtrip ⟨[.fact ⟨p, args, 0, 0⟩ 0 0]⟩ hwf
  refine ⟨Q, hok, ?_⟩
  have hmap : Q.clauses.map Clause.strip =
      [.fact ⟨p, args.map Term.strip, 0, 0⟩ 0 0] := by
    have h2 := congrArg Program.clauses hstrip
    simpa [Program.strip, Clause.strip, Atom.strip] using h2
  obtain ⟨c, hc1, hc2⟩ : ∃ c, Q.clauses = [c] ∧
      Clause.strip c = .fact ⟨p, args.map Term.strip, 0, 0⟩ 0 0 := by
    cases hq : Q.clauses with
    | nil => rw [hq] at hmap; simp at hmap
    | cons c rest =>
      rw [hq] at hmap
      simp only [List.map_cons, List.cons.injEq] at hmap
      obtain ⟨h1, h2⟩ := hmap
      obtain rfl : rest = [] := by
        cases rest with
        | nil => rfl
        | cons x xs => simp at h2
      exact ⟨c, rfl, h1⟩
  cases c with
  | rule hh b ln cn => simp [Clause.strip] at hc2
  | query aa ln cn => simp [Clause.strip] at hc2
  | fact aa ln cn =>
    rw [Clause.strip] at hc2
    simp only [Clause.fact.injEq] at hc2
    have hAS : Atom.strip aa = ⟨p, args.map Term.strip, 0, 0⟩ := hc2.1
    rw [Atom.strip] at hAS
    simp only [Atom.mk.injEq] at hAS
    refine ⟨aa, ln, cn, hc1, hAS.1, ?_, hAS.2.1⟩
    have h3 := congrArg List.length hAS.2.1
    simpa using h3

/-- Witness for C4 at the predicate edge with arguments a, b. -/
theorem C4_witness :
    (∃ Q, check_syntax (String.mk (Program.render ⟨[.fact ⟨"edge".data,
        [Term.const ['a'] 0 0, Term.const ['b'] 0 0], 0, 0⟩ 0 0]⟩)) = .ok Q ∧
      ∃ a ln cn, Q.clauses = [.fact a ln cn] ∧ a.predicate = "edge".data ∧
        a.args.length = [Term.const ['a'] 0 0, Term.const ['b'] 0 0].length ∧
        a.args.map Term.strip =
          [Term.const ['a'] 0 0, Term.const ['b'] 0 0].map Term.strip) ∧
    check_syntax ("edge(a,b).") =
      .ok ⟨[.fact ⟨"edge".data, [.const ['a'] 1 6, .const ['b'] 1 8], 1, 1⟩ 1 1]⟩ :=
  C4_fact_parsing ("edge".data) [Term.const ['a'] 0 0, Term.const ['b'] 0 0]
    (by decide) (by decide)

/-- Claim C6: the lexer recognizes :- and != as single two-character tokens
(longest match), fails on a ':' not followed by '-' and on a '!' not
followed by '=', and fails on every character outside the recognized set
with a LexerError carrying exactly that character's 1-based position and a
message naming it; edge(a,b) followed by a space and '@' fails at the
position of the '@', column 11. -/
theorem C6_lexer_errors (c : Char) (rest : List Char) (l col : Nat)
    (hws : isWsChar c = false) (hpc : c ≠ '%') (hlp : c ≠ '(') (hrp : c ≠ ')')
    (hcm : c ≠ ',') (hdt : c ≠ '.') (hqm : c ≠ '?') (heq : c ≠ '=')
    (hbg : c ≠ '!') (hcl : c ≠ ':') (hal : c.isAlpha = false) (hun : c ≠ '_') :
    lexStep (':' :: '-' :: rest) l col =
      .emit ⟨.colonDash, [':', '-'], l, col⟩ rest l (col + 2) ∧
    lexStep ('!' :: '=' :: rest) l col =
      .emit ⟨.notEquals, ['!', '='], l, col⟩ rest l (col + 2) ∧
    (nextIs '-' rest = false →
      lexStep (':' :: rest) l col = .fail ⟨unexpectedChar ':', l, col⟩) ∧
    (nextIs '=' rest = false →
      lexStep ('!' :: rest) l col = .fail ⟨unexpectedChar '!', l, col⟩) ∧
    lexStep (c :: rest) l col = .fail ⟨unexpectedChar c, l, col⟩ ∧
    tokenize ("edge(a,b) @".data) = .error ⟨unexpectedChar '@', 1, 11⟩ := by
  have h1 : ¬(c = ' ' ∨ c = '\t' ∨ c = '\r') := by
    rintro (h | h | h) <;> subst h <;> simp [isWsChar] at hws
  have h2 : c ≠ '\n' := by
    intro h
    subst h
    simp [isWsChar] at hws
  refine ⟨lexStep_colonDash rest l col, lexStep_notEquals rest l col, ?_, ?_, ?_, rfl⟩
  · intro hn
    rw [lexStep, if_neg (by decide), if_neg (by decide), if_neg (by decide),
      if_neg (by decide), if_neg (by decide), if_neg (by decide), if_neg (by decide),
      if_neg (by decide), if_neg (by decide), if_neg (by decide), if_pos rfl,
      if_neg (by simp [hn])]
  · intro hn
    rw [lexStep, if_neg (by decide), if_neg (by decide), if_neg (by decide),
      if_neg (by decide), if_neg (by decide), if_neg (by decide), if_neg (by decide),
      if_neg (by decide), if_neg (by decide), if_pos rfl, if_neg (by simp [hn])]
  · rw [lexStep, if_neg h1, if_neg h2, if_neg hpc, if_neg hlp, if_neg hrp,
      if_neg hcm, if_neg hdt, if_neg hqm, if_neg heq, if_neg hbg, if_neg hcl,
      if_neg (fun hh => hun hh.1),
      if_neg (fun hh => hh.elim
        (fun hx => by rw [hal] at hx; exact Bool.noConfusion hx) hun)]

/-- Witness for C6 at the character at sign with empty lookahead. -/
theorem C6_witness :
    lexStep [':', '-'] 1 1 = .emit ⟨.colonDash, [':', '-'], 1, 1⟩ [] 1 3 ∧
    lexStep ['!', '='] 1 1 = .emit ⟨.notEquals, ['!', '='], 1, 1⟩ [] 1 3 ∧
    lexStep [':'] 1 1 = .fail ⟨unexpectedChar ':', 1, 1⟩ ∧
    lexStep ['!'] 1 1 = .fail ⟨unexpectedChar '!', 1, 1⟩ ∧
    lexStep ['@'] 1 1 = .fail ⟨unexpectedChar '@', 1, 1⟩ := by
  have h := C6_lexer_errors '@' [] 1 1 (by decide) (by decide) (by decide)
    (by decide) (by decide) (by decide) (by decide) (by decide) (by decide)
    (by decide) (by decide) (by decide)
  exact ⟨h.1, h.2.1, h.2.2.1 rfl, h.2.2.2.1 rfl, h.2.2.2.2.1⟩

/-- Claim C7: every successful run of Lexer.tokenize returns a non-empty
token list whose last token is EOF (with empty text), in which no earlier
token is EOF and no token text contains a whitespace or comment
character. -/
theorem C7_token_stream (cs : List Char) (ts : List Token)
    (h : tokenize cs = .ok ts) :
    ts ≠ [] ∧
    (∃ tEof, ts.getLast? = some tEof ∧ tEof.type = .eof ∧ tEof.value = []) ∧
    (∀ t ∈ ts.dropLast, t.type ≠ .eof) ∧
    (∀ t ∈ ts, ∀ ch ∈ t.value, isWsChar ch = false ∧ ch ≠ '%') := by
  obtain ⟨ts0, tEof, rfl, hEof, hval, hg⟩ := tokenizeAux_ok_spec h
  refine ⟨by simp, ⟨tEof, by rw [List.getLast?_concat], hEof, hval⟩, ?_, ?_⟩
  · intro t ht
    rw [List.dropLast_concat] at ht
    exact (hg t ht).1
  · intro t ht ch hch
    rcases List.mem_append.mp ht with hm | hm
    · exact (hg t hm).2.2.1 ch hch
    · obtain rfl : t = tEof := by simpa using hm
      rw [hval] at hch
      simp at hch

/-- Witness for C7 at the source edge(a,b). -/
theorem C7_witness :
    ([⟨.identLower, "edge".data, 1, 1⟩, ⟨.lparen, ['('], 1, 5⟩,
      ⟨.identLower, ['a'], 1, 6⟩, ⟨.comma, [','], 1, 7⟩,
      ⟨.identLower, ['b'], 1, 8⟩, ⟨.rparen, [')'], 1, 9⟩,
      ⟨.dot, ['.'], 1, 10⟩, ⟨.eof, [], 1, 11⟩] : List Token) ≠ [] ∧
    (∃ tEof, ([⟨.identLower, "edge".data, 1, 1⟩, ⟨.lparen, ['('], 1, 5⟩,
      ⟨.identLower, ['a'], 1, 6⟩, ⟨.comma, [','], 1, 7⟩,
      ⟨.identLower, ['b'], 1, 8⟩, ⟨.rparen, [')'], 1, 9⟩,
      ⟨.dot, ['.'], 1, 10⟩, ⟨.eof, [], 1, 11⟩] : List Token).getLast? = some tEof ∧
      tEof.type = .eof ∧ tEof.value = []) ∧
    TokType.identLower ≠ TokType.eof ∧ isWsChar 'e' = false := by
  have h := C7_token_stream ("edge(a,b).".data)
    [⟨.identLower, "edge".data, 1, 1⟩, ⟨.lparen, ['('], 1, 5⟩,
      ⟨.identLower, ['a'], 1, 6⟩, ⟨.comma, [','], 1, 7⟩,
      ⟨.identLower, ['b'], 1, 8⟩, ⟨.rparen, [')'], 1, 9⟩,
      ⟨.dot, ['.'], 1, 10⟩, ⟨.eof, [], 1, 11⟩] rfl
  exact ⟨h.1, h.2.1, h.2.2.1 ⟨.identLower, "edge".data, 1, 1⟩ (by simp),
    (h.2.2.2 ⟨.identLower, "edge".data, 1, 1⟩ (by simp) 'e' (by simp)).1⟩

/-- Claim C9: a parenthesized argument list needs at least one term: for
every lexer-producible predicate p the source p(). is rejected with a
SyntaxError at the ')' token (line 1, column p.length + 2), and every atom
of an accepted program has either no arguments or at least one. -/
theorem C9_empty_parens (p : List Char) (hp : wfLowerB p = true)
    (s : String) (P : Program) (hP : check_syntax s = .ok P) :
    check_syntax (String.mk (p ++ ['(', ')', '.'])) =
      .error (.parse ⟨termErrMsg ⟨.rparen, [')'], 1, 1 + p.length + 1⟩,
        1, 1 + p.length + 1⟩) ∧
    (∀ a ∈ P.atoms, a.args = [] ∨ 1 ≤ a.args.length) := by
  constructor
  · have hlex : tokenize (p ++ ['(', ')', '.']) = .ok [⟨.identLower, p, 1, 1⟩,
        ⟨.lparen, ['('], 1, 1 + p.length⟩, ⟨.rparen, [')'], 1, 1 + p.length + 1⟩,
        ⟨.dot, ['.'], 1, 1 + p.length + 1 + 1⟩,
        ⟨.eof, [], 1, 1 + p.length + 1 + 1 + 1⟩] := by
      rw [tokenize_eq_from,
        tokenizeFrom_emit (@lexStep_identLower p ['(', ')', '.'] 1 1 hp rfl),
        show tokenizeFrom ['(', ')', '.'] 1 (1 + p.length) = .ok [
          ⟨.lparen, ['('], 1, 1 + p.length⟩, ⟨.rparen, [')'], 1, 1 + p.length + 1⟩,
          ⟨.dot, ['.'], 1, 1 + p.length + 1 + 1⟩,
          ⟨.eof, [], 1, 1 + p.length + 1 + 1 + 1⟩] from rfl]
      rfl
    have hparse : parse_program [⟨.identLower, p, 1, 1⟩,
        ⟨.lparen, ['('], 1, 1 + p.length⟩, ⟨.rparen, [')'], 1, 1 + p.length + 1⟩,
        ⟨.dot, ['.'], 1, 1 + p.length + 1 + 1⟩,
        ⟨.eof, [], 1, 1 + p.length + 1 + 1 + 1⟩] =
        .error ⟨termErrMsg ⟨.rparen, [')'], 1, 1 + p.length + 1⟩,
          1, 1 + p.length + 1⟩ := rfl
    rw [show check_syntax (String.mk (p ++ ['(', ')', '.'])) =
      checkSyntaxL (p ++ ['(', ')', '.']) from rfl, checkSyntaxL]
    simp only [hlex, hparse]
  · intro a ha
    cases h2 : a.args with
    | nil => exact .inl rfl
    | cons x xs => exact .inr (by simp [h2])

/-- Witness for C9 at the predicate p and the accepted source edge(a,b). -/
theorem C9_witness :
    check_syntax (String.mk (['p'] ++ ['(', ')', '.'])) =
      .error (.parse ⟨termErrMsg ⟨.rparen, [')'], 1, 1 + 1 + 1⟩, 1, 1 + 1 + 1⟩) ∧
    (∀ a ∈ Program.atoms ⟨[.fact ⟨"edge".data,
        [.const ['a'] 1 6, .const ['b'] 1 8], 1, 1⟩ 1 1]⟩,
      a.args = [] ∨ 1 ≤ a.args.length) := by
  have h := C9_empty_parens ['p'] (by decide) ("edge(a,b).")
    ⟨[.fact ⟨"edge".data, [.const ['a'] 1 6, .const ['b'] 1 8], 1, 1⟩ 1 1]⟩ rfl
  exact ⟨h.1, h.2⟩

end DatalogIR
